import Mathlib

/-!
Verification of the SmartLoad load optimizer.

The development shallowly embeds the optimizer core: the pairwise
compatibility checks, the bitmask compatibility-graph builder, the
descending-payout search order with its suffix-sum bound table, the
branch-and-bound search, and the result assembler with its utilization
percentages.  Python integers are modelled as `Int` (`Nat` for bitmasks
and indices), calendar dates as integers with the usual order, strings
as `String`, and the float utilization arithmetic as exact rationals
with a round-half-to-even rounding at two decimals.
-/

/-- Model of `app.models.Order`.  Dates are modelled as integers (ordinal
days), which preserves the order structure used by the optimizer. -/
structure Order where
  id : String
  payout_cents : Int
  weight_lbs : Int
  volume_cuft : Int
  origin : String
  destination : String
  pickup_date : Int
  delivery_date : Int
  is_hazmat : Bool
deriving Repr, DecidableEq, Inhabited

/-- Model of `app.models.Truck`. -/
structure Truck where
  id : String
  max_weight_lbs : Int
  max_volume_cuft : Int
deriving Repr, DecidableEq, Inhabited

/-- Embedding of `LoadOptimizer._check_time_windows`: the later pickup must
happen no later than the earlier delivery. -/
def check_time_windows (order1 order2 : Order) : Bool :=
  let latest_pickup := max order1.pickup_date order2.pickup_date
  let earliest_delivery := min order1.delivery_date order2.delivery_date
  decide (latest_pickup ≤ earliest_delivery)

/-- Embedding of `LoadOptimizer._check_same_route`: origins and destinations
must match after stripping surrounding whitespace and lowercasing. -/
def check_same_route (order1 order2 : Order) : Bool :=
  let origin_match := order1.origin.trim.toLower == order2.origin.trim.toLower
  let dest_match := order1.destination.trim.toLower == order2.destination.trim.toLower
  origin_match && dest_match

/-- Embedding of `LoadOptimizer._check_hazmat_ok`: hazmat flags must agree. -/
def check_hazmat_ok (order1 order2 : Order) : Bool :=
  order1.is_hazmat == order2.is_hazmat

/-- Embedding of the `can_combine` conjunction inside
`LoadOptimizer._build_compatibility_masks`. -/
def can_combine (order1 order2 : Order) : Bool :=
  check_same_route order1 order2 && check_time_windows order1 order2 &&
    check_hazmat_ok order1 order2

/-- One iteration of the inner loop of `_build_compatibility_masks`:
for the pair `(i, j)`, if the orders can combine, set bit `j` in mask `i`
and bit `i` in mask `j`. -/
def pair_step (orders : List Order) (i : Nat) (masks : List Nat) (j : Nat) : List Nat :=
  if can_combine (orders.getD i default) (orders.getD j default) then
    let masks1 := masks.set i (masks.getD i 0 ||| (1 <<< j))
    masks1.set j (masks1.getD j 0 ||| (1 <<< i))
  else masks

/-- One iteration of the outer loop of `_build_compatibility_masks`:
set the diagonal bit for `i`, then run the inner loop over `j` in
`range(i + 1, n)`. -/
def row_step (orders : List Order) (masks : List Nat) (i : Nat) : List Nat :=
  let masks1 := masks.set i (masks.getD i 0 ||| (1 <<< i))
  (List.range' (i + 1) (orders.length - (i + 1))).foldl (pair_step orders i) masks1

/-- Embedding of `LoadOptimizer._build_compatibility_masks`. -/
def build_compatibility_masks (orders : List Order) : List Nat :=
  (List.range orders.length).foldl (row_step orders) (List.replicate orders.length 0)

/-- Suffix sums: the backward loop of `optimize` that fills `suffix_payout`
with `suffix_payout[i] = suffix_payout[i + 1] + payouts[order_by_value[i]]`,
starting from a final entry `0`. -/
def suffix_sums (ps : List Int) : List Int :=
  ps.foldr (fun x s => (s.headD 0 + x) :: s) [0]

/-- The sort key used for `order_by_value`: Python's stable descending sort
by payout puts `i` before `j` exactly when `i` has the larger payout, or the
payouts tie and `i` came first in the input. -/
def sort_key (payouts : List Int) (i j : Nat) : Bool :=
  decide (payouts.getD j 0 < payouts.getD i 0 ∨
    (payouts.getD i 0 = payouts.getD j 0 ∧ i ≤ j))

/-- The precomputed data that `LoadOptimizer.optimize` sets up (lines 88 to
105 of `optimizer.py`) before launching the recursive search. -/
structure SearchCtx where
  n : Nat
  order_by_value : List Nat
  suffix_payout : List Int
  payouts : List Int
  weights : List Int
  volumes : List Int
  max_weight : Int
  max_volume : Int
  compat_masks : List Nat
deriving Repr

/-- Embedding of the setup part of `LoadOptimizer.optimize`. -/
def mk_search_ctx (truck : Truck) (orders : List Order) : SearchCtx :=
  let n := orders.length
  let compat_masks := build_compatibility_masks orders
  let payouts := orders.map (fun o => o.payout_cents)
  let weights := orders.map (fun o => o.weight_lbs)
  let volumes := orders.map (fun o => o.volume_cuft)
  let order_by_value := (List.range n).mergeSort (sort_key payouts)
  let suffix_payout := suffix_sums (order_by_value.map (fun i => payouts.getD i 0))
  ⟨n, order_by_value, suffix_payout, payouts, weights, volumes,
    truck.max_weight_lbs, truck.max_volume_cuft, compat_masks⟩

/-- Embedding of the list comprehension on line 118 of `optimizer.py`: the
original order indices recorded for the current selection, namely
`order_by_value[i]` for every depth `i < idx` whose bit is set in
`selected_mask`. -/
def selection_of_mask (ctx : SearchCtx) (idx selected_mask : Nat) : List Nat :=
  ((List.range idx).filter (fun i => selected_mask &&& (1 <<< i) != 0)).map
    (fun i => ctx.order_by_value.getD i 0)

/-- Embedding of the incumbent update at the top of `search`: replace the
best pair exactly when the current payout strictly exceeds the best payout. -/
def update_best (ctx : SearchCtx) (idx selected_mask : Nat) (curr_payout : Int)
    (best : Int × List Nat) : Int × List Nat :=
  if best.1 < curr_payout then (curr_payout, selection_of_mask ctx idx selected_mask)
  else best

/-- Embedding of the recursive `search` closure of `LoadOptimizer.optimize`.
The mutable `best_payout` and `best_selection` cells are threaded through as
an explicit `best` pair; otherwise the control flow mirrors the source:
incumbent update, terminal check, suffix-bound prune, include branch
(guarded by the eligible-set bit and the capacity checks), then the skip
branch. -/
def search (ctx : SearchCtx) (idx selected_mask : Nat)
    (curr_payout curr_weight curr_volume : Int) (valid_orders : Nat)
    (best : Int × List Nat) : Int × List Nat :=
  let best1 := update_best ctx idx selected_mask curr_payout best
  if _h : ctx.n ≤ idx then best1
  else if curr_payout + ctx.suffix_payout.getD idx 0 ≤ best1.1 then best1
  else
    let order_idx := ctx.order_by_value.getD idx 0
    let best2 :=
      if valid_orders &&& (1 <<< order_idx) != 0 then
        let new_weight := curr_weight + ctx.weights.getD order_idx 0
        let new_volume := curr_volume + ctx.volumes.getD order_idx 0
        if new_weight ≤ ctx.max_weight ∧ new_volume ≤ ctx.max_volume then
          search ctx (idx + 1) (selected_mask ||| (1 <<< idx))
            (curr_payout + ctx.payouts.getD order_idx 0) new_weight new_volume
            (valid_orders &&& ctx.compat_masks.getD order_idx 0) best1
        else best1
      else best1
    search ctx (idx + 1) selected_mask curr_payout curr_weight curr_volume
      valid_orders best2
termination_by ctx.n - idx
decreasing_by all_goals omega

/-- The root call of the search: depth 0, nothing selected, zero totals,
every order eligible, incumbent payout 0 with empty selection. -/
def run_search (truck : Truck) (orders : List Order) : Int × List Nat :=
  search (mk_search_ctx truck orders) 0 0 0 0 0 ((1 <<< orders.length) - 1) (0, [])

/-- Embedding of `LoadOptimizer.optimize`: returns the tuple of selected
order ids, total payout, total weight and total volume. -/
def optimize (truck : Truck) (orders : List Order) : List String × Int × Int × Int :=
  if orders.length = 0 then ([], 0, 0, 0)
  else
    let ctx := mk_search_ctx truck orders
    let best := run_search truck orders
    let selected_ids := best.2.map (fun i => (orders.getD i default).id)
    let total_weight := (best.2.map (fun i => ctx.weights.getD i 0)).sum
    let total_volume := (best.2.map (fun i => ctx.volumes.getD i 0)).sum
    (selected_ids, best.1, total_weight, total_volume)

/-- Round-half-to-even on rationals, the rounding mode of Python's `round`.
On a tie the even neighbour is chosen; `2 * round (q / 2)` is exactly that
neighbour. -/
def round_half_even (q : ℚ) : Int :=
  if Int.fract q = 1 / 2 then 2 * round (q / 2) else round q

/-- Model of Python's `round(x, 2)` on the exact rational value. -/
def py_round_2 (q : ℚ) : ℚ := (round_half_even (q * 100) : ℚ) / 100

/-- Model of the dict returned by `optimize_load` (the fields of
`app.models.OptimizeResponse`); the two float utilization percentages are
modelled as exact rationals. -/
structure OptimizeResponse where
  truck_id : String
  selected_order_ids : List String
  total_payout_cents : Int
  total_weight_lbs : Int
  total_volume_cuft : Int
  utilization_weight_percent : ℚ
  utilization_volume_percent : ℚ
deriving Repr, DecidableEq

/-- Embedding of `optimize_load`: run the optimizer, then compute the
utilization percentages, leaving them at 0 when the corresponding capacity
is not positive, and round them to two decimals. -/
def optimize_load (truck : Truck) (orders : List Order) : OptimizeResponse :=
  let r := optimize truck orders
  let weight_util : ℚ :=
    if 0 < truck.max_weight_lbs then
      ((r.2.2.1 : ℚ) / (truck.max_weight_lbs : ℚ)) * 100
    else 0
  let volume_util : ℚ :=
    if 0 < truck.max_volume_cuft then
      ((r.2.2.2 : ℚ) / (truck.max_volume_cuft : ℚ)) * 100
    else 0
  ⟨truck.id, r.1, r.2.1, r.2.2.1, r.2.2.2, py_round_2 weight_util,
    py_round_2 volume_util⟩

/-- Specification-side predicate: the input preconditions of the optimizer
core (positive capacities, non-negative payouts, positive weights and
volumes). -/
def ValidInput (truck : Truck) (orders : List Order) : Prop :=
  0 < truck.max_weight_lbs ∧ 0 < truck.max_volume_cuft ∧
    (∀ o ∈ orders, 0 ≤ o.payout_cents) ∧ (∀ o ∈ orders, 0 < o.weight_lbs) ∧
    (∀ o ∈ orders, 0 < o.volume_cuft)

/-- Specification-side total payout of a set of order indices. -/
def payout_sum (orders : List Order) (s : Finset Nat) : Int :=
  s.sum (fun i => (orders.getD i default).payout_cents)

/-- Specification-side total weight of a set of order indices. -/
def weight_sum (orders : List Order) (s : Finset Nat) : Int :=
  s.sum (fun i => (orders.getD i default).weight_lbs)

/-- Specification-side total volume of a set of order indices. -/
def volume_sum (orders : List Order) (s : Finset Nat) : Int :=
  s.sum (fun i => (orders.getD i default).volume_cuft)

/-- Specification-side feasibility: a set of order indices is within range,
pairwise compatible, and within both truck capacities. -/
def FeasibleCompatible (truck : Truck) (orders : List Order) (s : Finset Nat) : Prop :=
  (∀ i ∈ s, i < orders.length) ∧
    (∀ i ∈ s, ∀ j ∈ s, i ≠ j →
      can_combine (orders.getD i default) (orders.getD j default) = true) ∧
    weight_sum orders s ≤ truck.max_weight_lbs ∧
    volume_sum orders s ≤ truck.max_volume_cuft

/-! Basic facts about the bit operations used by the optimizer. -/

theorem one_shiftLeft (i : Nat) : (1 : Nat) <<< i = 2 ^ i := by
  rw [Nat.shiftLeft_eq, one_mul]

theorem and_shift_ne (x i : Nat) : (x &&& (1 <<< i) != 0) = x.testBit i := by
  rw [one_shiftLeft, Nat.and_two_pow]
  cases h : x.testBit i <;> simp [h, bne_iff_ne, Nat.pow_eq_zero]

/-! Unfolding equations for `search`, one per control-flow branch. -/

theorem search_of_le (ctx : SearchCtx) (idx sm : Nat) (p w v : Int) (valid : Nat)
    (best : Int × List Nat) (h : ctx.n ≤ idx) :
    search ctx idx sm p w v valid best = update_best ctx idx sm p best := by
  rw [search]
  simp only [dif_pos h]

theorem search_of_prune (ctx : SearchCtx) (idx sm : Nat) (p w v : Int) (valid : Nat)
    (best : Int × List Nat) (h : ¬ ctx.n ≤ idx)
    (h2 : p + ctx.suffix_payout.getD idx 0 ≤ (update_best ctx idx sm p best).1) :
    search ctx idx sm p w v valid best = update_best ctx idx sm p best := by
  rw [search]
  simp only [dif_neg h, if_pos h2]

theorem search_of_include (ctx : SearchCtx) (idx sm : Nat) (p w v : Int) (valid : Nat)
    (best : Int × List Nat) (h : ¬ ctx.n ≤ idx)
    (h2 : ¬ p + ctx.suffix_payout.getD idx 0 ≤ (update_best ctx idx sm p best).1)
    (h3 : (valid &&& (1 <<< ctx.order_by_value.getD idx 0) != 0) = true)
    (h4 : w + ctx.weights.getD (ctx.order_by_value.getD idx 0) 0 ≤ ctx.max_weight ∧
      v + ctx.volumes.getD (ctx.order_by_value.getD idx 0) 0 ≤ ctx.max_volume) :
    search ctx idx sm p w v valid best =
      search ctx (idx + 1) sm p w v valid
        (search ctx (idx + 1) (sm ||| (1 <<< idx))
          (p + ctx.payouts.getD (ctx.order_by_value.getD idx 0) 0)
          (w + ctx.weights.getD (ctx.order_by_value.getD idx 0) 0)
          (v + ctx.volumes.getD (ctx.order_by_value.getD idx 0) 0)
          (valid &&& ctx.compat_masks.getD (ctx.order_by_value.getD idx 0) 0)
          (update_best ctx idx sm p best)) := by
  rw [search]
  simp only [dif_neg h, if_neg h2, if_pos h3, if_pos h4]

theorem search_of_skip_only (ctx : SearchCtx) (idx sm : Nat) (p w v : Int) (valid : Nat)
    (best : Int × List Nat) (h : ¬ ctx.n ≤ idx)
    (h2 : ¬ p + ctx.suffix_payout.getD idx 0 ≤ (update_best ctx idx sm p best).1)
    (h3 : ¬ ((valid &&& (1 <<< ctx.order_by_value.getD idx 0) != 0) = true ∧
      (w + ctx.weights.getD (ctx.order_by_value.getD idx 0) 0 ≤ ctx.max_weight ∧
        v + ctx.volumes.getD (ctx.order_by_value.getD idx 0) 0 ≤ ctx.max_volume))) :
    search ctx idx sm p w v valid best =
      search ctx (idx + 1) sm p w v valid (update_best ctx idx sm p best) := by
  rw [search]
  simp only [dif_neg h, if_neg h2]
  rcases Decidable.em ((valid &&& (1 <<< ctx.order_by_value.getD idx 0) != 0) = true) with hb | hb
  · have h4 : ¬ (w + ctx.weights.getD (ctx.order_by_value.getD idx 0) 0 ≤ ctx.max_weight ∧
        v + ctx.volumes.getD (ctx.order_by_value.getD idx 0) 0 ≤ ctx.max_volume) := by
      intro hc; exact h3 ⟨hb, hc⟩
    simp only [if_pos hb, if_neg h4]
  · simp only [if_neg hb]

/-! Facts about the suffix-sum table. -/

theorem suffix_sums_nil : suffix_sums [] = [0] := rfl

theorem suffix_sums_cons (x : Int) (xs : List Int) :
    suffix_sums (x :: xs) = ((suffix_sums xs).headD 0 + x) :: suffix_sums xs := rfl

theorem suffix_sums_length (l : List Int) : (suffix_sums l).length = l.length + 1 := by
  induction l with
  | nil => rfl
  | cons x xs ih =>
    rw [suffix_sums_cons, List.length_cons, ih, List.length_cons]

theorem suffix_sums_headD (l : List Int) : (suffix_sums l).headD 0 = l.sum := by
  induction l with
  | nil => rfl
  | cons x xs ih =>
    rw [suffix_sums_cons]
    simp only [List.headD_cons, List.sum_cons, ih]
    omega

theorem suffix_sums_getD (l : List Int) : ∀ i, (suffix_sums l).getD i 0 = (l.drop i).sum := by
  induction l with
  | nil =>
    intro i
    cases i <;> simp [suffix_sums_nil]
  | cons x xs ih =>
    intro i
    cases i with
    | zero =>
      rw [suffix_sums_cons, List.getD_cons_zero, suffix_sums_headD]
      simp only [List.drop_zero, List.sum_cons]
      omega
    | succ m =>
      rw [suffix_sums_cons, List.getD_cons_succ, ih m]
      rfl

/-! Facts about `selection_of_mask`. -/

theorem selection_of_mask_zero (ctx : SearchCtx) (m : Nat) :
    selection_of_mask ctx 0 m = [] := rfl

theorem selection_of_mask_succ_true (ctx : SearchCtx) (idx m : Nat)
    (h : m.testBit idx = true) :
    selection_of_mask ctx (idx + 1) m =
      selection_of_mask ctx idx m ++ [ctx.order_by_value.getD idx 0] := by
  unfold selection_of_mask
  rw [List.range_succ, List.filter_append, List.map_append]
  simp [and_shift_ne, h]

theorem selection_of_mask_succ_false (ctx : SearchCtx) (idx m : Nat)
    (h : m.testBit idx = false) :
    selection_of_mask ctx (idx + 1) m = selection_of_mask ctx idx m := by
  unfold selection_of_mask
  rw [List.range_succ, List.filter_append, List.map_append]
  simp [and_shift_ne, h]

theorem selection_of_mask_or_pow (ctx : SearchCtx) (idx m : Nat) :
    selection_of_mask ctx idx (m ||| (1 <<< idx)) = selection_of_mask ctx idx m := by
  unfold selection_of_mask
  congr 1
  apply List.filter_congr
  intro i hi
  rw [List.mem_range] at hi
  rw [and_shift_ne, and_shift_ne, Nat.testBit_lor, one_shiftLeft, Nat.testBit_two_pow]
  have hne : idx ≠ i := by omega
  simp [hne]

theorem mem_selection_of_mask (ctx : SearchCtx) (idx m a : Nat) :
    a ∈ selection_of_mask ctx idx m ↔
      ∃ d, d < idx ∧ m.testBit d = true ∧ ctx.order_by_value.getD d 0 = a := by
  unfold selection_of_mask
  simp only [List.mem_map, List.mem_filter, List.mem_range, and_shift_ne]
  constructor
  · rintro ⟨d, ⟨hd, hbit⟩, hval⟩
    exact ⟨d, hd, hbit, hval⟩
  · rintro ⟨d, hd, hbit, hval⟩
    exact ⟨d, ⟨hd, hbit⟩, hval⟩

/-! Characterization and symmetry of the compatibility evaluator. -/

theorem can_combine_iff (order1 order2 : Order) :
    can_combine order1 order2 = true ↔
      (order1.origin.trim.toLower = order2.origin.trim.toLower ∧
        order1.destination.trim.toLower = order2.destination.trim.toLower ∧
        max order1.pickup_date order2.pickup_date ≤
          min order1.delivery_date order2.delivery_date ∧
        order1.is_hazmat = order2.is_hazmat) := by
  simp only [can_combine, check_same_route, check_time_windows, check_hazmat_ok,
    Bool.and_eq_true, beq_iff_eq, decide_eq_true_eq]
  tauto

theorem can_combine_symm (order1 order2 : Order) :
    can_combine order1 order2 = can_combine order2 order1 := by
  rw [Bool.eq_iff_iff, can_combine_iff, can_combine_iff]
  constructor
  · rintro ⟨h1, h2, h3, h4⟩
    exact ⟨h1.symm, h2.symm, by rw [max_comm, min_comm]; exact h3, h4.symm⟩
  · rintro ⟨h1, h2, h3, h4⟩
    exact ⟨h1.symm, h2.symm, by rw [max_comm, min_comm]; exact h3, h4.symm⟩

/-! Projection facts for `mk_search_ctx`. -/

theorem mk_n (truck : Truck) (orders : List Order) :
    (mk_search_ctx truck orders).n = orders.length := rfl

theorem mk_max_weight (truck : Truck) (orders : List Order) :
    (mk_search_ctx truck orders).max_weight = truck.max_weight_lbs := rfl

theorem mk_max_volume (truck : Truck) (orders : List Order) :
    (mk_search_ctx truck orders).max_volume = truck.max_volume_cuft := rfl

theorem mk_payouts (truck : Truck) (orders : List Order) :
    (mk_search_ctx truck orders).payouts = orders.map (fun o => o.payout_cents) := rfl

theorem mk_weights (truck : Truck) (orders : List Order) :
    (mk_search_ctx truck orders).weights = orders.map (fun o => o.weight_lbs) := rfl

theorem mk_volumes (truck : Truck) (orders : List Order) :
    (mk_search_ctx truck orders).volumes = orders.map (fun o => o.volume_cuft) := rfl

theorem mk_compat_masks (truck : Truck) (orders : List Order) :
    (mk_search_ctx truck orders).compat_masks = build_compatibility_masks orders := rfl

theorem mk_order_by_value (truck : Truck) (orders : List Order) :
    (mk_search_ctx truck orders).order_by_value =
      (List.range orders.length).mergeSort
        (sort_key (orders.map (fun o => o.payout_cents))) := rfl

theorem mk_suffix_payout (truck : Truck) (orders : List Order) :
    (mk_search_ctx truck orders).suffix_payout =
      suffix_sums ((mk_search_ctx truck orders).order_by_value.map
        (fun i => (mk_search_ctx truck orders).payouts.getD i 0)) := rfl

/-! Facts about the search-order permutation. -/

theorem obv_perm (truck : Truck) (orders : List Order) :
    (mk_search_ctx truck orders).order_by_value.Perm (List.range orders.length) := by
  rw [mk_order_by_value]
  exact List.mergeSort_perm _ _

theorem obv_length (truck : Truck) (orders : List Order) :
    (mk_search_ctx truck orders).order_by_value.length = orders.length := by
  have h := (obv_perm truck orders).length_eq
  simpa using h

theorem obv_nodup (truck : Truck) (orders : List Order) :
    (mk_search_ctx truck orders).order_by_value.Nodup :=
  (obv_perm truck orders).symm.nodup (List.nodup_range _)

theorem obv_mem_iff (truck : Truck) (orders : List Order) (a : Nat) :
    a ∈ (mk_search_ctx truck orders).order_by_value ↔ a < orders.length := by
  rw [(obv_perm truck orders).mem_iff, List.mem_range]

theorem obv_getD_lt (truck : Truck) (orders : List Order) {d : Nat}
    (h : d < orders.length) :
    (mk_search_ctx truck orders).order_by_value.getD d 0 < orders.length := by
  have hd : d < (mk_search_ctx truck orders).order_by_value.length := by
    rw [obv_length]; exact h
  rw [List.getD_eq_getElem _ _ hd]
  rw [← obv_mem_iff truck orders]
  exact List.getElem_mem hd

theorem obv_getD_inj (truck : Truck) (orders : List Order) {d e : Nat}
    (hd : d < orders.length) (he : e < orders.length)
    (heq : (mk_search_ctx truck orders).order_by_value.getD d 0 =
      (mk_search_ctx truck orders).order_by_value.getD e 0) : d = e := by
  have hd2 : d < (mk_search_ctx truck orders).order_by_value.length := by
    rw [obv_length]; exact hd
  have he2 : e < (mk_search_ctx truck orders).order_by_value.length := by
    rw [obv_length]; exact he
  rw [List.getD_eq_getElem _ _ hd2, List.getD_eq_getElem _ _ he2] at heq
  exact ((obv_nodup truck orders).getElem_inj_iff).mp heq

theorem sort_key_trans (ps : List Int) (a b c : Nat) (h1 : sort_key ps a b = true)
    (h2 : sort_key ps b c = true) : sort_key ps a c = true := by
  simp only [sort_key, decide_eq_true_eq] at h1 h2 ⊢
  rcases h1 with h1 | ⟨h1e, h1le⟩ <;> rcases h2 with h2 | ⟨h2e, h2le⟩
  · exact Or.inl (h2.trans h1)
  · exact Or.inl (by rw [← h2e]; exact h1)
  · exact Or.inl (by rw [h1e]; exact h2)
  · exact Or.inr ⟨h1e.trans h2e, h1le.trans h2le⟩

theorem sort_key_total (ps : List Int) (a b : Nat) :
    (sort_key ps a b || sort_key ps b a) = true := by
  simp only [sort_key, Bool.or_eq_true, decide_eq_true_eq]
  rcases lt_trichotomy (ps.getD a 0) (ps.getD b 0) with h | h | h
  · exact Or.inr (Or.inl h)
  · rcases Nat.le_total a b with hab | hab
    · exact Or.inl (Or.inr ⟨h, hab⟩)
    · exact Or.inr (Or.inr ⟨h.symm, hab⟩)
  · exact Or.inl (Or.inl h)

theorem obv_sorted (truck : Truck) (orders : List Order) :
    List.Pairwise
      (fun a b => sort_key (orders.map (fun o => o.payout_cents)) a b = true)
      (mk_search_ctx truck orders).order_by_value := by
  rw [mk_order_by_value]
  exact List.sorted_mergeSort (sort_key_trans _) (sort_key_total _) _

theorem obv_desc (truck : Truck) (orders : List Order) {d e : Nat} (hde : d < e)
    (he : e < orders.length) :
    (mk_search_ctx truck orders).payouts.getD
        ((mk_search_ctx truck orders).order_by_value.getD e 0) 0 ≤
      (mk_search_ctx truck orders).payouts.getD
        ((mk_search_ctx truck orders).order_by_value.getD d 0) 0 := by
  have hp := obv_sorted truck orders
  rw [List.pairwise_iff_getElem] at hp
  have hd2 : d < (mk_search_ctx truck orders).order_by_value.length := by
    rw [obv_length]; omega
  have he2 : e < (mk_search_ctx truck orders).order_by_value.length := by
    rw [obv_length]; exact he
  have hkey := hp d e hd2 he2 hde
  rw [List.getD_eq_getElem _ _ hd2, List.getD_eq_getElem _ _ he2, mk_payouts]
  simp only [sort_key, decide_eq_true_eq] at hkey
  rcases hkey with hlt | ⟨heq, _hle⟩
  · exact le_of_lt hlt
  · exact le_of_eq heq.symm

/-! Per-order field lookups through the context lists. -/

theorem payouts_getD (truck : Truck) (orders : List Order) {i : Nat}
    (h : i < orders.length) :
    (mk_search_ctx truck orders).payouts.getD i 0 =
      (orders.getD i default).payout_cents := by
  rw [mk_payouts, List.getD_eq_getElem _ _ (by simpa using h), List.getElem_map,
    List.getD_eq_getElem _ _ h]

theorem weights_getD (truck : Truck) (orders : List Order) {i : Nat}
    (h : i < orders.length) :
    (mk_search_ctx truck orders).weights.getD i 0 =
      (orders.getD i default).weight_lbs := by
  rw [mk_weights, List.getD_eq_getElem _ _ (by simpa using h), List.getElem_map,
    List.getD_eq_getElem _ _ h]

theorem volumes_getD (truck : Truck) (orders : List Order) {i : Nat}
    (h : i < orders.length) :
    (mk_search_ctx truck orders).volumes.getD i 0 =
      (orders.getD i default).volume_cuft := by
  rw [mk_volumes, List.getD_eq_getElem _ _ (by simpa using h), List.getElem_map,
    List.getD_eq_getElem _ _ h]

theorem getD_mem_of_lt (orders : List Order) {i : Nat} (h : i < orders.length) :
    orders.getD i default ∈ orders := by
  rw [List.getD_eq_getElem _ _ h]
  exact List.getElem_mem h

theorem payouts_getD_nonneg (truck : Truck) (orders : List Order)
    (hp : ∀ o ∈ orders, 0 ≤ o.payout_cents) (i : Nat) :
    0 ≤ (mk_search_ctx truck orders).payouts.getD i 0 := by
  rcases Nat.lt_or_ge i orders.length with h | h
  · rw [payouts_getD truck orders h]
    exact hp _ (getD_mem_of_lt orders h)
  · rw [List.getD_eq_default]
    · rw [mk_payouts]; simpa using h

theorem weights_getD_nonneg (truck : Truck) (orders : List Order)
    (hVI : ValidInput truck orders) (i : Nat) :
    0 ≤ (mk_search_ctx truck orders).weights.getD i 0 := by
  rcases Nat.lt_or_ge i orders.length with h | h
  · rw [weights_getD truck orders h]
    exact le_of_lt (hVI.2.2.2.1 _ (getD_mem_of_lt orders h))
  · rw [List.getD_eq_default]
    · rw [mk_weights]; simpa using h

theorem volumes_getD_nonneg (truck : Truck) (orders : List Order)
    (hVI : ValidInput truck orders) (i : Nat) :
    0 ≤ (mk_search_ctx truck orders).volumes.getD i 0 := by
  rcases Nat.lt_or_ge i orders.length with h | h
  · rw [volumes_getD truck orders h]
    exact le_of_lt (hVI.2.2.2.2 _ (getD_mem_of_lt orders h))
  · rw [List.getD_eq_default]
    · rw [mk_volumes]; simpa using h

/-! The suffix table holds the payout sums of the remaining candidates. -/

theorem suffix_payout_getD (truck : Truck) (orders : List Order) (i : Nat) :
    (mk_search_ctx truck orders).suffix_payout.getD i 0 =
      (((mk_search_ctx truck orders).order_by_value.drop i).map
        (fun k => (mk_search_ctx truck orders).payouts.getD k 0)).sum := by
  rw [mk_suffix_payout, suffix_sums_getD, List.map_drop]

/-! Characterization of the compatibility-mask builder: bit `b` of mask `a`
is set exactly when `a = b` or the two orders can combine. -/

def OrdersCompat (orders : List Order) (a b : Nat) : Prop :=
  can_combine (orders.getD a default) (orders.getD b default) = true

theorem orders_compat_symm (orders : List Order) (a b : Nat) :
    OrdersCompat orders a b ↔ OrdersCompat orders b a := by
  unfold OrdersCompat
  rw [can_combine_symm]

/-- Invariant condition after the inner loop of the builder has handled the
pairs with smaller index `i` and, within row `i`, partners below `t`. -/
def InnerCond (orders : List Order) (i t a b : Nat) : Prop :=
  a < orders.length ∧ b < orders.length ∧
    ((a = b ∧ a ≤ i) ∨ (a ≠ b ∧ OrdersCompat orders a b ∧
      (min a b < i ∨ (min a b = i ∧ max a b < t))))

/-- Invariant condition after the outer loop of the builder has handled the
rows below `k`. -/
def OuterCond (orders : List Order) (k a b : Nat) : Prop :=
  a < orders.length ∧ b < orders.length ∧
    ((a = b ∧ a < k) ∨ (a ≠ b ∧ OrdersCompat orders a b ∧ min a b < k))

/-- A mask list realizes a condition when it has full length and its bits
decide the condition. -/
def MaskInv (orders : List Order) (Cond : Nat → Nat → Prop) (ms : List Nat) : Prop :=
  ms.length = orders.length ∧ ∀ a b, ((ms.getD a 0).testBit b = true ↔ Cond a b)

theorem getD_set_self_nat (l : List Nat) {i : Nat} (v : Nat) (h : i < l.length) :
    (l.set i v).getD i 0 = v := by
  rw [List.getD_eq_getElem _ _ (by simpa using h)]
  exact List.getElem_set_self _

theorem getD_set_ne_nat (l : List Nat) {i a : Nat} (v : Nat) (h : i ≠ a) :
    (l.set i v).getD a 0 = l.getD a 0 := by
  rcases Nat.lt_or_ge a l.length with ha | ha
  · rw [List.getD_eq_getElem _ _ (by simpa using ha), List.getD_eq_getElem _ _ ha]
    exact List.getElem_set_ne h _
  · rw [List.getD_eq_default _ _ (by simpa using ha), List.getD_eq_default _ _ ha]

theorem inner_cond_mono (orders : List Order) {i t1 t2 a b : Nat} (h : t1 ≤ t2)
    (hC : InnerCond orders i t1 a b) : InnerCond orders i t2 a b := by
  rcases hC with ⟨h1, h2, h3 | ⟨h3, h4, h5⟩⟩
  · exact ⟨h1, h2, Or.inl h3⟩
  · exact ⟨h1, h2, Or.inr ⟨h3, h4, by omega⟩⟩

theorem inner_cond_iff_of_num (orders : List Order) {i t1 t2 a b : Nat}
    (h : (min a b < i ∨ (min a b = i ∧ max a b < t1)) ↔
      (min a b < i ∨ (min a b = i ∧ max a b < t2))) :
    (InnerCond orders i t1 a b ↔ InnerCond orders i t2 a b) := by
  unfold InnerCond
  tauto

theorem pair_step_inv (orders : List Order) {i j : Nat} {ms : List Nat}
    (hij : i < j) (hj : j < orders.length)
    (hInv : MaskInv orders (InnerCond orders i j) ms) :
    MaskInv orders (InnerCond orders i (j + 1)) (pair_step orders i ms j) := by
  obtain ⟨hlen, hms⟩ := hInv
  have hi : i < orders.length := lt_trans hij hj
  have hij2 : i ≠ j := Nat.ne_of_lt hij
  unfold pair_step
  by_cases hcc : can_combine (orders.getD i default) (orders.getD j default) = true
  · rw [if_pos hcc]
    have hcij : OrdersCompat orders i j := hcc
    have hcji : OrdersCompat orders j i := (orders_compat_symm orders i j).mp hcc
    have hms1j : (ms.set i (ms.getD i 0 ||| (1 <<< j))).getD j 0 = ms.getD j 0 :=
      getD_set_ne_nat ms _ hij2
    have hlen1 : (ms.set i (ms.getD i 0 ||| (1 <<< j))).length = orders.length := by
      rw [List.length_set]; exact hlen
    refine ⟨by rw [List.length_set]; exact hlen1, fun a b => ?_⟩
    rcases eq_or_ne a j with haj | haj
    · subst haj
      rw [getD_set_self_nat _ _ (by rw [hlen1]; exact hj), hms1j,
        Nat.testBit_lor, one_shiftLeft, Nat.testBit_two_pow]
      simp only [Bool.or_eq_true, decide_eq_true_eq]
      constructor
      · rintro (hbit | hib)
        · exact inner_cond_mono orders (by omega) ((hms a b).mp hbit)
        · subst hib
          exact ⟨hj, hi, Or.inr ⟨Ne.symm hij2, hcji, by omega⟩⟩
      · intro hC
        by_cases hib : i = b
        · exact Or.inr hib
        · refine Or.inl ((hms a b).mpr ?_)
          exact (inner_cond_iff_of_num orders (by omega)).mp hC
    · rw [getD_set_ne_nat _ _ (Ne.symm haj)]
      rcases eq_or_ne a i with hai | hai
      · subst hai
        rw [getD_set_self_nat _ _ (by rw [hlen]; exact hi),
          Nat.testBit_lor, one_shiftLeft, Nat.testBit_two_pow]
        simp only [Bool.or_eq_true, decide_eq_true_eq]
        constructor
        · rintro (hbit | hjb)
          · exact inner_cond_mono orders (by omega) ((hms a b).mp hbit)
          · subst hjb
            exact ⟨hi, hj, Or.inr ⟨hij2, hcij, by omega⟩⟩
        · intro hC
          by_cases hjb : j = b
          · exact Or.inr hjb
          · refine Or.inl ((hms a b).mpr ?_)
            exact (inner_cond_iff_of_num orders (by omega)).mp hC
      · rw [getD_set_ne_nat _ _ (Ne.symm hai), hms a b]
        exact (inner_cond_iff_of_num orders (by omega)).symm
  · rw [if_neg hcc]
    refine ⟨hlen, fun a b => ?_⟩
    rw [hms a b]
    constructor
    · exact fun h => inner_cond_mono orders (by omega) h
    · rintro ⟨h1, h2, h3 | ⟨hne, hcab, hnum⟩⟩
      · exact ⟨h1, h2, Or.inl h3⟩
      · refine ⟨h1, h2, Or.inr ⟨hne, hcab, ?_⟩⟩
        rcases hnum with hlt | ⟨hmineq, hmaxlt⟩
        · exact Or.inl hlt
        · rcases Nat.lt_or_ge (max a b) j with hmax | hmax
          · exact Or.inr ⟨hmineq, hmax⟩
          · exfalso
            have hpair : (a = i ∧ b = j) ∨ (a = j ∧ b = i) := by omega
            rcases hpair with ⟨ha2, hb2⟩ | ⟨ha2, hb2⟩
            · subst ha2; subst hb2; exact hcc hcab
            · subst ha2; subst hb2
              exact hcc ((orders_compat_symm orders _ _).mp hcab)

theorem inner_fold_inv (orders : List Order) (i : Nat) :
    ∀ (m t : Nat) (ms : List Nat), i < t → t + m ≤ orders.length →
      MaskInv orders (InnerCond orders i t) ms →
      MaskInv orders (InnerCond orders i (t + m))
        ((List.range' t m).foldl (pair_step orders i) ms) := by
  intro m
  induction m with
  | zero =>
    intro t ms _ _ h
    simpa using h
  | succ k ih =>
    intro t ms hit htm hInv
    rw [List.range'_succ]
    simp only [List.foldl_cons]
    have h1 : MaskInv orders (InnerCond orders i (t + 1)) (pair_step orders i ms t) :=
      pair_step_inv orders hit (by omega) hInv
    have h2 := ih (t + 1) (pair_step orders i ms t) (by omega) (by omega) h1
    have he : t + 1 + k = t + (k + 1) := by omega
    rw [he] at h2
    exact h2

theorem mask_inv_congr (orders : List Order) {C1 C2 : Nat → Nat → Prop} {ms : List Nat}
    (h : ∀ a b, C1 a b ↔ C2 a b) (hInv : MaskInv orders C1 ms) : MaskInv orders C2 ms :=
  ⟨hInv.1, fun a b => (hInv.2 a b).trans (h a b)⟩

theorem inner_start_iff (orders : List Order) {i : Nat} (hi : i < orders.length)
    (a b : Nat) :
    InnerCond orders i (i + 1) a b ↔ (OuterCond orders i a b ∨ (a = b ∧ a = i)) := by
  unfold InnerCond OuterCond
  constructor
  · rintro ⟨h1, h2, ⟨he, hk⟩ | ⟨hne, hcc2, hnum⟩⟩
    · rcases Nat.lt_or_ge a i with h | h
      · exact Or.inl ⟨h1, h2, Or.inl ⟨he, h⟩⟩
      · exact Or.inr ⟨he, by omega⟩
    · refine Or.inl ⟨h1, h2, Or.inr ⟨hne, hcc2, ?_⟩⟩
      omega
  · rintro (⟨h1, h2, ⟨he, hk⟩ | ⟨hne, hcc2, hnum⟩⟩ | ⟨he, hai⟩)
    · exact ⟨h1, h2, Or.inl ⟨he, by omega⟩⟩
    · exact ⟨h1, h2, Or.inr ⟨hne, hcc2, by omega⟩⟩
    · subst hai
      subst he
      exact ⟨hi, hi, Or.inl ⟨rfl, le_refl a⟩⟩

theorem inner_end_iff (orders : List Order) {i : Nat} (a b : Nat) :
    InnerCond orders i orders.length a b ↔ OuterCond orders (i + 1) a b := by
  unfold InnerCond OuterCond
  constructor
  · rintro ⟨h1, h2, ⟨he, hk⟩ | ⟨hne, hcc2, hnum⟩⟩
    · exact ⟨h1, h2, Or.inl ⟨he, by omega⟩⟩
    · exact ⟨h1, h2, Or.inr ⟨hne, hcc2, by omega⟩⟩
  · rintro ⟨h1, h2, ⟨he, hk⟩ | ⟨hne, hcc2, hnum⟩⟩
    · exact ⟨h1, h2, Or.inl ⟨he, by omega⟩⟩
    · exact ⟨h1, h2, Or.inr ⟨hne, hcc2, by omega⟩⟩

theorem row_step_inv (orders : List Order) {i : Nat} {ms : List Nat}
    (hi : i < orders.length)
    (hInv : MaskInv orders (OuterCond orders i) ms) :
    MaskInv orders (OuterCond orders (i + 1)) (row_step orders ms i) := by
  obtain ⟨hlen, hms⟩ := hInv
  unfold row_step
  have hdiag : MaskInv orders (InnerCond orders i (i + 1))
      (ms.set i (ms.getD i 0 ||| (1 <<< i))) := by
    refine ⟨by rw [List.length_set]; exact hlen, fun a b => ?_⟩
    rw [inner_start_iff orders hi]
    rcases eq_or_ne a i with hai | hai
    · subst hai
      rw [getD_set_self_nat _ _ (by rw [hlen]; exact hi),
        Nat.testBit_lor, one_shiftLeft, Nat.testBit_two_pow]
      simp only [Bool.or_eq_true, decide_eq_true_eq]
      constructor
      · rintro (hbit | hib)
        · exact Or.inl ((hms a b).mp hbit)
        · exact Or.inr ⟨hib, by trivial⟩
      · rintro (hout | ⟨hib, _⟩)
        · exact Or.inl ((hms a b).mpr hout)
        · exact Or.inr hib
    · rw [getD_set_ne_nat _ _ (Ne.symm hai), hms a b]
      constructor
      · exact Or.inl
      · rintro (hout | ⟨_, hai2⟩)
        · exact hout
        · exact absurd hai2 hai
  have h2 := inner_fold_inv orders i (orders.length - (i + 1)) (i + 1)
    (ms.set i (ms.getD i 0 ||| (1 <<< i))) (by omega) (by omega) hdiag
  have he : i + 1 + (orders.length - (i + 1)) = orders.length := by omega
  rw [he] at h2
  exact mask_inv_congr orders (inner_end_iff orders) h2

theorem outer_fold_inv (orders : List Order) :
    ∀ (m k : Nat) (ms : List Nat), k + m ≤ orders.length →
      MaskInv orders (OuterCond orders k) ms →
      MaskInv orders (OuterCond orders (k + m))
        ((List.range' k m).foldl (row_step orders) ms) := by
  intro m
  induction m with
  | zero =>
    intro k ms _ h
    simpa using h
  | succ q ih =>
    intro k ms hkm hInv
    rw [List.range'_succ]
    simp only [List.foldl_cons]
    have h1 : MaskInv orders (OuterCond orders (k + 1)) (row_step orders ms k) :=
      row_step_inv orders (by omega) hInv
    have h2 := ih (k + 1) (row_step orders ms k) (by omega) h1
    have he : k + 1 + q = k + (q + 1) := by omega
    rw [he] at h2
    exact h2

theorem replicate_inv (orders : List Order) :
    MaskInv orders (OuterCond orders 0) (List.replicate orders.length 0) := by
  refine ⟨List.length_replicate _ _, fun a b => ?_⟩
  have hz : (List.replicate orders.length (0 : Nat)).getD a 0 = 0 := by
    rcases Nat.lt_or_ge a orders.length with h | h
    · rw [List.getD_eq_getElem _ _ (by simpa using h)]
      simp
    · exact List.getD_eq_default _ _ (by simpa using h)
  rw [hz, Nat.zero_testBit]
  simp only [Bool.false_eq_true, false_iff]
  rintro ⟨_, _, ⟨_, hk⟩ | ⟨_, _, hk⟩⟩ <;> omega

theorem build_masks_inv (orders : List Order) :
    MaskInv orders (OuterCond orders orders.length) (build_compatibility_masks orders) := by
  unfold build_compatibility_masks
  rw [List.range_eq_range']
  have h := outer_fold_inv orders orders.length 0 (List.replicate orders.length 0)
    (by omega) (replicate_inv orders)
  simpa using h

theorem build_masks_testBit (orders : List Order) (a b : Nat) :
    ((build_compatibility_masks orders).getD a 0).testBit b = true ↔
      (a < orders.length ∧ b < orders.length ∧ (a = b ∨ OrdersCompat orders a b)) := by
  rw [(build_masks_inv orders).2 a b]
  unfold OuterCond
  constructor
  · rintro ⟨h1, h2, ⟨he, _⟩ | ⟨_, hcc2, _⟩⟩
    · exact ⟨h1, h2, Or.inl he⟩
    · exact ⟨h1, h2, Or.inr hcc2⟩
  · rintro ⟨h1, h2, he | hcc2⟩
    · exact ⟨h1, h2, Or.inl ⟨he, by omega⟩⟩
    · rcases eq_or_ne a b with he | hne
      · exact ⟨h1, h2, Or.inl ⟨he, by omega⟩⟩
      · exact ⟨h1, h2, Or.inr ⟨hne, hcc2, by omega⟩⟩

theorem compat_masks_testBit (truck : Truck) (orders : List Order) (a b : Nat) :
    (((mk_search_ctx truck orders).compat_masks.getD a 0).testBit b = true) ↔
      (a < orders.length ∧ b < orders.length ∧ (a = b ∨ OrdersCompat orders a b)) := by
  rw [mk_compat_masks]
  exact build_masks_testBit orders a b

/-! Sums of per-order quantities over a list of order indices. -/

def psum (ctx : SearchCtx) (l : List Nat) : Int :=
  (l.map (fun i => ctx.payouts.getD i 0)).sum

def wsum (ctx : SearchCtx) (l : List Nat) : Int :=
  (l.map (fun i => ctx.weights.getD i 0)).sum

def vsum (ctx : SearchCtx) (l : List Nat) : Int :=
  (l.map (fun i => ctx.volumes.getD i 0)).sum

theorem psum_append (ctx : SearchCtx) (l : List Nat) (x : Nat) :
    psum ctx (l ++ [x]) = psum ctx l + ctx.payouts.getD x 0 := by
  simp [psum]

theorem wsum_append (ctx : SearchCtx) (l : List Nat) (x : Nat) :
    wsum ctx (l ++ [x]) = wsum ctx l + ctx.weights.getD x 0 := by
  simp [wsum]

theorem vsum_append (ctx : SearchCtx) (l : List Nat) (x : Nat) :
    vsum ctx (l ++ [x]) = vsum ctx l + ctx.volumes.getD x 0 := by
  simp [vsum]

/-- Pairwise compatibility of a list of order indices. -/
def PairwiseCompat (orders : List Order) (l : List Nat) : Prop :=
  ∀ i ∈ l, ∀ j ∈ l, i ≠ j → OrdersCompat orders i j

/-! Helper facts about the recorded selection list. -/

theorem sel_mem_lt (truck : Truck) (orders : List Order) {idx m i : Nat}
    (hidx : idx ≤ orders.length)
    (hi : i ∈ selection_of_mask (mk_search_ctx truck orders) idx m) :
    i < orders.length := by
  rw [mem_selection_of_mask] at hi
  obtain ⟨d, hd, _, hval⟩ := hi
  exact hval ▸ obv_getD_lt truck orders (by omega)

theorem sel_nodup (truck : Truck) (orders : List Order) {idx m : Nat}
    (hidx : idx ≤ orders.length) :
    (selection_of_mask (mk_search_ctx truck orders) idx m).Nodup := by
  unfold selection_of_mask
  apply List.Nodup.map_on
  · intro x hx y hy hxy
    rw [List.mem_filter, List.mem_range] at hx hy
    exact obv_getD_inj truck orders (by omega) (by omega) hxy
  · exact (List.nodup_range idx).filter _

theorem sel_ne_current (truck : Truck) (orders : List Order) {idx m i : Nat}
    (hidx : idx < orders.length)
    (hi : i ∈ selection_of_mask (mk_search_ctx truck orders) idx m) :
    i ≠ (mk_search_ctx truck orders).order_by_value.getD idx 0 := by
  rw [mem_selection_of_mask] at hi
  obtain ⟨d, hd, _, hval⟩ := hi
  intro he
  have heq : (mk_search_ctx truck orders).order_by_value.getD d 0 =
      (mk_search_ctx truck orders).order_by_value.getD idx 0 := by rw [hval]; exact he
  have := obv_getD_inj truck orders (by omega) hidx heq
  omega

theorem selection_include (ctx : SearchCtx) (idx m : Nat) :
    selection_of_mask ctx (idx + 1) (m ||| (1 <<< idx)) =
      selection_of_mask ctx idx m ++ [ctx.order_by_value.getD idx 0] := by
  rw [selection_of_mask_succ_true ctx idx _
    (by rw [Nat.testBit_lor, one_shiftLeft, Nat.testBit_two_pow]; simp),
    selection_of_mask_or_pow]

/-- The state invariant carried by every call of `search`: the mask decodes
to a selection whose totals are the running totals, the totals fit the
truck, the selection is pairwise compatible, and the eligible-set bits are
exactly the in-range orders compatible with everything selected. -/
structure StateInv (truck : Truck) (orders : List Order) (idx selected_mask : Nat)
    (p w v : Int) (valid : Nat) : Prop where
  idx_le : idx ≤ orders.length
  mask_lt : selected_mask < 2 ^ idx
  p_eq : p = psum (mk_search_ctx truck orders)
    (selection_of_mask (mk_search_ctx truck orders) idx selected_mask)
  w_eq : w = wsum (mk_search_ctx truck orders)
    (selection_of_mask (mk_search_ctx truck orders) idx selected_mask)
  v_eq : v = vsum (mk_search_ctx truck orders)
    (selection_of_mask (mk_search_ctx truck orders) idx selected_mask)
  w_le : w ≤ truck.max_weight_lbs
  v_le : v ≤ truck.max_volume_cuft
  compat : PairwiseCompat orders
    (selection_of_mask (mk_search_ctx truck orders) idx selected_mask)
  valid_bit : ∀ j, valid.testBit j = true ↔
    (j < orders.length ∧
      ∀ i ∈ selection_of_mask (mk_search_ctx truck orders) idx selected_mask,
        i = j ∨ OrdersCompat orders i j)

/-- The invariant of the incumbent pair: a nodup, in-range, pairwise
compatible selection whose payout sum is the stored payout and whose weight
and volume fit the truck. -/
structure BestInv (truck : Truck) (orders : List Order)
    (best : Int × List Nat) : Prop where
  nodup : best.2.Nodup
  mem_lt : ∀ i ∈ best.2, i < orders.length
  compat : PairwiseCompat orders best.2
  p_eq : best.1 = psum (mk_search_ctx truck orders) best.2
  w_le : wsum (mk_search_ctx truck orders) best.2 ≤ truck.max_weight_lbs
  v_le : vsum (mk_search_ctx truck orders) best.2 ≤ truck.max_volume_cuft

theorem update_best_inv (truck : Truck) (orders : List Order) {idx m : Nat}
    {p w v : Int} {valid : Nat} {best : Int × List Nat}
    (hS : StateInv truck orders idx m p w v valid)
    (hB : BestInv truck orders best) :
    BestInv truck orders (update_best (mk_search_ctx truck orders) idx m p best) ∧
      best.1 ≤ (update_best (mk_search_ctx truck orders) idx m p best).1 ∧
      p ≤ (update_best (mk_search_ctx truck orders) idx m p best).1 := by
  unfold update_best
  by_cases h : best.1 < p
  · rw [if_pos h]
    refine ⟨⟨sel_nodup truck orders hS.idx_le,
      fun i hi => sel_mem_lt truck orders hS.idx_le hi, hS.compat,
      hS.p_eq, ?_, ?_⟩, le_of_lt h, le_refl p⟩
    · rw [← hS.w_eq]; exact hS.w_le
    · rw [← hS.v_eq]; exact hS.v_le
  · rw [if_neg h]
    exact ⟨hB, le_refl _, by omega⟩

theorem state_inv_skip (truck : Truck) (orders : List Order) {idx m : Nat}
    {p w v : Int} {valid : Nat}
    (hS : StateInv truck orders idx m p w v valid)
    (hidx : idx < orders.length) :
    StateInv truck orders (idx + 1) m p w v valid := by
  have hbit : m.testBit idx = false := Nat.testBit_lt_two_pow hS.mask_lt
  have hsel : selection_of_mask (mk_search_ctx truck orders) (idx + 1) m =
      selection_of_mask (mk_search_ctx truck orders) idx m :=
    selection_of_mask_succ_false _ _ _ hbit
  have hpow : (2 : Nat) ^ idx < 2 ^ (idx + 1) := by
    rw [pow_succ]
    have h1 : 1 ≤ (2 : Nat) ^ idx := Nat.one_le_two_pow
    omega
  exact ⟨by omega, lt_trans hS.mask_lt hpow,
    by rw [hsel]; exact hS.p_eq, by rw [hsel]; exact hS.w_eq,
    by rw [hsel]; exact hS.v_eq, hS.w_le, hS.v_le,
    by rw [hsel]; exact hS.compat,
    by rw [hsel]; exact hS.valid_bit⟩

theorem state_inv_include (truck : Truck) (orders : List Order) {idx m : Nat}
    {p w v : Int} {valid : Nat}
    (hS : StateInv truck orders idx m p w v valid)
    (hidx : idx < orders.length)
    (hbit : valid.testBit ((mk_search_ctx truck orders).order_by_value.getD idx 0) = true)
    (hw : w + (mk_search_ctx truck orders).weights.getD
      ((mk_search_ctx truck orders).order_by_value.getD idx 0) 0 ≤ truck.max_weight_lbs)
    (hv : v + (mk_search_ctx truck orders).volumes.getD
      ((mk_search_ctx truck orders).order_by_value.getD idx 0) 0 ≤ truck.max_volume_cuft) :
    StateInv truck orders (idx + 1) (m ||| (1 <<< idx))
      (p + (mk_search_ctx truck orders).payouts.getD
        ((mk_search_ctx truck orders).order_by_value.getD idx 0) 0)
      (w + (mk_search_ctx truck orders).weights.getD
        ((mk_search_ctx truck orders).order_by_value.getD idx 0) 0)
      (v + (mk_search_ctx truck orders).volumes.getD
        ((mk_search_ctx truck orders).order_by_value.getD idx 0) 0)
      (valid &&& (mk_search_ctx truck orders).compat_masks.getD
        ((mk_search_ctx truck orders).order_by_value.getD idx 0) 0) := by
  have hpow : (2 : Nat) ^ idx < 2 ^ (idx + 1) := by
    rw [pow_succ]
    have h1 : 1 ≤ (2 : Nat) ^ idx := Nat.one_le_two_pow
    omega
  have hoidx : (mk_search_ctx truck orders).order_by_value.getD idx 0 < orders.length :=
    obv_getD_lt truck orders hidx
  have hvb := (hS.valid_bit _).mp hbit
  have hsel := selection_include (mk_search_ctx truck orders) idx m
  -- compatibility of the new order with everything already selected
  have hcompat_new : ∀ i ∈ selection_of_mask (mk_search_ctx truck orders) idx m,
      OrdersCompat orders i ((mk_search_ctx truck orders).order_by_value.getD idx 0) := by
    intro i hi
    rcases hvb.2 i hi with he | hc
    · exact absurd he (sel_ne_current truck orders hidx hi)
    · exact hc
  refine ⟨by omega, ?_, ?_, ?_, ?_, hw, hv, ?_, ?_⟩
  · exact Nat.or_lt_two_pow (lt_trans hS.mask_lt hpow) (by rw [one_shiftLeft]; exact hpow)
  · rw [hsel, psum_append, hS.p_eq]
  · rw [hsel, wsum_append, hS.w_eq]
  · rw [hsel, vsum_append, hS.v_eq]
  · rw [hsel]
    intro i hi j hj hne
    rcases List.mem_append.mp hi with hi2 | hi2 <;>
      rcases List.mem_append.mp hj with hj2 | hj2
    · exact hS.compat i hi2 j hj2 hne
    · rw [List.mem_singleton] at hj2
      subst hj2
      exact hcompat_new i hi2
    · rw [List.mem_singleton] at hi2
      subst hi2
      exact (orders_compat_symm orders _ _).mp (hcompat_new j hj2)
    · rw [List.mem_singleton] at hi2 hj2
      omega
  · intro j
    rw [hsel, Nat.testBit_land, Bool.and_eq_true, hS.valid_bit j,
      compat_masks_testBit truck orders]
    constructor
    · rintro ⟨⟨hjn, hall⟩, ⟨_, _, hcj⟩⟩
      refine ⟨hjn, fun i hi => ?_⟩
      rcases List.mem_append.mp hi with hi2 | hi2
      · exact hall i hi2
      · rw [List.mem_singleton] at hi2
        subst hi2
        exact hcj
    · rintro ⟨hjn, hall⟩
      refine ⟨⟨hjn, fun i hi => hall i (List.mem_append.mpr (Or.inl hi))⟩,
        hoidx, hjn, hall _ (List.mem_append.mpr (Or.inr (List.mem_singleton.mpr rfl)))⟩

theorem search_best_inv (truck : Truck) (orders : List Order) :
    ∀ (fuel idx m : Nat) (p w v : Int) (valid : Nat) (best : Int × List Nat),
      orders.length - idx ≤ fuel →
      StateInv truck orders idx m p w v valid →
      BestInv truck orders best →
      BestInv truck orders (search (mk_search_ctx truck orders) idx m p w v valid best) ∧
        best.1 ≤ (search (mk_search_ctx truck orders) idx m p w v valid best).1 := by
  intro fuel
  induction fuel with
  | zero =>
    intro idx m p w v valid best hfuel hS hB
    rw [search_of_le _ _ _ _ _ _ _ _ (by rw [mk_n]; omega)]
    have h := update_best_inv truck orders hS hB
    exact ⟨h.1, h.2.1⟩
  | succ f ih =>
    intro idx m p w v valid best hfuel hS hB
    by_cases hidx : orders.length ≤ idx
    · rw [search_of_le _ _ _ _ _ _ _ _ (by rw [mk_n]; omega)]
      have h := update_best_inv truck orders hS hB
      exact ⟨h.1, h.2.1⟩
    · have hub := update_best_inv truck orders hS hB
      by_cases hprune : p + (mk_search_ctx truck orders).suffix_payout.getD idx 0 ≤
          (update_best (mk_search_ctx truck orders) idx m p best).1
      · rw [search_of_prune _ _ _ _ _ _ _ _ (by rw [mk_n]; omega) hprune]
        exact ⟨hub.1, hub.2.1⟩
      · by_cases hbit : valid.testBit
            ((mk_search_ctx truck orders).order_by_value.getD idx 0) = true
        · by_cases hfits : w + (mk_search_ctx truck orders).weights.getD
              ((mk_search_ctx truck orders).order_by_value.getD idx 0) 0 ≤
                (mk_search_ctx truck orders).max_weight ∧
              v + (mk_search_ctx truck orders).volumes.getD
                ((mk_search_ctx truck orders).order_by_value.getD idx 0) 0 ≤
                (mk_search_ctx truck orders).max_volume
          · rw [search_of_include _ _ _ _ _ _ _ _ (by rw [mk_n]; omega) hprune
              (by rw [and_shift_ne]; exact hbit) hfits]
            have hSinc := state_inv_include truck orders hS (by omega) hbit
              hfits.1 hfits.2
            have hinc := ih (idx + 1) (m ||| (1 <<< idx)) _ _ _ _ _ (by omega)
              hSinc hub.1
            have hSskip := state_inv_skip truck orders hS (by omega)
            have hskip := ih (idx + 1) m p w v valid _ (by omega) hSskip hinc.1
            exact ⟨hskip.1, le_trans hub.2.1 (le_trans hinc.2 hskip.2)⟩
          · rw [search_of_skip_only _ _ _ _ _ _ _ _ (by rw [mk_n]; omega) hprune
              (by intro hc; exact hfits hc.2)]
            have hSskip := state_inv_skip truck orders hS (by omega)
            have hskip := ih (idx + 1) m p w v valid _ (by omega) hSskip hub.1
            exact ⟨hskip.1, le_trans hub.2.1 hskip.2⟩
        · rw [search_of_skip_only _ _ _ _ _ _ _ _ (by rw [mk_n]; omega) hprune
            (by intro hc; rw [and_shift_ne] at hc; exact hbit hc.1)]
          have hSskip := state_inv_skip truck orders hS (by omega)
          have hskip := ih (idx + 1) m p w v valid _ (by omega) hSskip hub.1
          exact ⟨hskip.1, le_trans hub.2.1 hskip.2⟩

theorem finset_payout_le_suffix (truck : Truck) (orders : List Order)
    (hp : ∀ o ∈ orders, 0 ≤ o.payout_cents) (idx : Nat) (U : Finset Nat)
    (hU : ∀ u ∈ U, u ∈ (mk_search_ctx truck orders).order_by_value.drop idx) :
    U.sum (fun u => (mk_search_ctx truck orders).payouts.getD u 0) ≤
      (mk_search_ctx truck orders).suffix_payout.getD idx 0 := by
  rw [suffix_payout_getD]
  have hnd : ((mk_search_ctx truck orders).order_by_value.drop idx).Nodup :=
    List.Nodup.sublist (List.drop_sublist _ _) (obv_nodup truck orders)
  rw [← List.sum_toFinset _ hnd]
  apply Finset.sum_le_sum_of_subset_of_nonneg
  · intro u hu
    rw [List.mem_toFinset]
    exact hU u hu
  · intro i _ _
    exact payouts_getD_nonneg truck orders hp i

theorem mem_drop_succ_of_ne (truck : Truck) (orders : List Order) {idx u : Nat}
    (hidx : idx < orders.length)
    (hu : u ∈ (mk_search_ctx truck orders).order_by_value.drop idx)
    (hne : u ≠ (mk_search_ctx truck orders).order_by_value.getD idx 0) :
    u ∈ (mk_search_ctx truck orders).order_by_value.drop (idx + 1) := by
  have hlen : idx < (mk_search_ctx truck orders).order_by_value.length := by
    rw [obv_length]; exact hidx
  rw [List.drop_eq_getElem_cons hlen] at hu
  rcases List.mem_cons.mp hu with he | h2
  · exfalso
    apply hne
    rw [he, List.getD_eq_getElem _ _ hlen]
  · exact h2

theorem search_reaches (truck : Truck) (orders : List Order)
    (hVI : ValidInput truck orders) :
    ∀ (fuel idx m : Nat) (p w v : Int) (valid : Nat) (best : Int × List Nat)
      (U : Finset Nat),
      orders.length - idx ≤ fuel →
      StateInv truck orders idx m p w v valid →
      BestInv truck orders best →
      (∀ u ∈ U, u ∈ (mk_search_ctx truck orders).order_by_value.drop idx) →
      (∀ a b : Nat,
        (a ∈ U ∨ a ∈ selection_of_mask (mk_search_ctx truck orders) idx m) →
        (b ∈ U ∨ b ∈ selection_of_mask (mk_search_ctx truck orders) idx m) →
        a ≠ b → OrdersCompat orders a b) →
      w + U.sum (fun u => (mk_search_ctx truck orders).weights.getD u 0) ≤
        truck.max_weight_lbs →
      v + U.sum (fun u => (mk_search_ctx truck orders).volumes.getD u 0) ≤
        truck.max_volume_cuft →
      p + U.sum (fun u => (mk_search_ctx truck orders).payouts.getD u 0) ≤
        (search (mk_search_ctx truck orders) idx m p w v valid best).1 := by
  intro fuel
  induction fuel with
  | zero =>
    intro idx m p w v valid best U hfuel hS hB hU hcompat hwU hvU
    have hdrop : (mk_search_ctx truck orders).order_by_value.drop idx = [] := by
      apply List.drop_eq_nil_of_le
      rw [obv_length]; omega
    have hUe : U = ∅ := by
      apply Finset.eq_empty_iff_forall_not_mem.mpr
      intro u hu
      have h2 := hU u hu
      rw [hdrop] at h2
      simp at h2
    subst hUe
    rw [Finset.sum_empty, search_of_le _ _ _ _ _ _ _ _ (by rw [mk_n]; omega)]
    have h := update_best_inv truck orders hS hB
    omega
  | succ f ih =>
    intro idx m p w v valid best U hfuel hS hB hU hcompat hwU hvU
    by_cases hidx : orders.length ≤ idx
    · have hdrop : (mk_search_ctx truck orders).order_by_value.drop idx = [] := by
        apply List.drop_eq_nil_of_le
        rw [obv_length]; omega
      have hUe : U = ∅ := by
        apply Finset.eq_empty_iff_forall_not_mem.mpr
        intro u hu
        have h2 := hU u hu
        rw [hdrop] at h2
        simp at h2
      subst hUe
      rw [Finset.sum_empty, search_of_le _ _ _ _ _ _ _ _ (by rw [mk_n]; omega)]
      have h := update_best_inv truck orders hS hB
      omega
    · have hub := update_best_inv truck orders hS hB
      by_cases hprune : p + (mk_search_ctx truck orders).suffix_payout.getD idx 0 ≤
          (update_best (mk_search_ctx truck orders) idx m p best).1
      · rw [search_of_prune _ _ _ _ _ _ _ _ (by rw [mk_n]; omega) hprune]
        have hle := finset_payout_le_suffix truck orders hVI.2.2.1 idx U hU
        omega
      · by_cases hmem : (mk_search_ctx truck orders).order_by_value.getD idx 0 ∈ U
        · -- the candidate is part of the target set: the include branch is taken
          have hwnonneg : ∀ i ∈ U, 0 ≤ (mk_search_ctx truck orders).weights.getD i 0 :=
            fun i _ => weights_getD_nonneg truck orders hVI i
          have hvnonneg : ∀ i ∈ U, 0 ≤ (mk_search_ctx truck orders).volumes.getD i 0 :=
            fun i _ => volumes_getD_nonneg truck orders hVI i
          have hwle : (mk_search_ctx truck orders).weights.getD
              ((mk_search_ctx truck orders).order_by_value.getD idx 0) 0 ≤
              U.sum (fun u => (mk_search_ctx truck orders).weights.getD u 0) :=
            Finset.single_le_sum hwnonneg hmem
          have hvle : (mk_search_ctx truck orders).volumes.getD
              ((mk_search_ctx truck orders).order_by_value.getD idx 0) 0 ≤
              U.sum (fun u => (mk_search_ctx truck orders).volumes.getD u 0) :=
            Finset.single_le_sum hvnonneg hmem
          have hbit : valid.testBit
              ((mk_search_ctx truck orders).order_by_value.getD idx 0) = true := by
            apply (hS.valid_bit _).mpr
            refine ⟨obv_getD_lt truck orders (by omega), fun i hi => ?_⟩
            exact Or.inr (hcompat i _ (Or.inr hi) (Or.inl hmem)
              (sel_ne_current truck orders (by omega) hi))
          have hfits : w + (mk_search_ctx truck orders).weights.getD
              ((mk_search_ctx truck orders).order_by_value.getD idx 0) 0 ≤
                (mk_search_ctx truck orders).max_weight ∧
              v + (mk_search_ctx truck orders).volumes.getD
                ((mk_search_ctx truck orders).order_by_value.getD idx 0) 0 ≤
                (mk_search_ctx truck orders).max_volume := by
            constructor
            · rw [mk_max_weight]; omega
            · rw [mk_max_volume]; omega
          rw [search_of_include _ _ _ _ _ _ _ _ (by rw [mk_n]; omega) hprune
            (by rw [and_shift_ne]; exact hbit) hfits]
          have hSinc := state_inv_include truck orders hS (by omega) hbit
            (by rw [← mk_max_weight truck orders]; exact hfits.1)
            (by rw [← mk_max_volume truck orders]; exact hfits.2)
          have hmw := mk_max_weight truck orders
          have hmv := mk_max_volume truck orders
          have hwerase : (mk_search_ctx truck orders).weights.getD
              ((mk_search_ctx truck orders).order_by_value.getD idx 0) 0 +
              (U.erase ((mk_search_ctx truck orders).order_by_value.getD idx 0)).sum
                (fun u => (mk_search_ctx truck orders).weights.getD u 0) =
              U.sum (fun u => (mk_search_ctx truck orders).weights.getD u 0) :=
            Finset.add_sum_erase U
              (fun u => (mk_search_ctx truck orders).weights.getD u 0) hmem
          have hverase : (mk_search_ctx truck orders).volumes.getD
              ((mk_search_ctx truck orders).order_by_value.getD idx 0) 0 +
              (U.erase ((mk_search_ctx truck orders).order_by_value.getD idx 0)).sum
                (fun u => (mk_search_ctx truck orders).volumes.getD u 0) =
              U.sum (fun u => (mk_search_ctx truck orders).volumes.getD u 0) :=
            Finset.add_sum_erase U
              (fun u => (mk_search_ctx truck orders).volumes.getD u 0) hmem
          have hperase : (mk_search_ctx truck orders).payouts.getD
              ((mk_search_ctx truck orders).order_by_value.getD idx 0) 0 +
              (U.erase ((mk_search_ctx truck orders).order_by_value.getD idx 0)).sum
                (fun u => (mk_search_ctx truck orders).payouts.getD u 0) =
              U.sum (fun u => (mk_search_ctx truck orders).payouts.getD u 0) :=
            Finset.add_sum_erase U
              (fun u => (mk_search_ctx truck orders).payouts.getD u 0) hmem
          have hsel := selection_include (mk_search_ctx truck orders) idx m
          have hU2 : ∀ u ∈ U.erase ((mk_search_ctx truck orders).order_by_value.getD idx 0),
              u ∈ (mk_search_ctx truck orders).order_by_value.drop (idx + 1) := by
            intro u hu
            have hne := Finset.ne_of_mem_erase hu
            exact mem_drop_succ_of_ne truck orders (by omega)
              (hU u (Finset.mem_of_mem_erase hu)) hne
          have hcompat2 : ∀ a b : Nat,
              (a ∈ U.erase ((mk_search_ctx truck orders).order_by_value.getD idx 0) ∨
                a ∈ selection_of_mask (mk_search_ctx truck orders) (idx + 1)
                  (m ||| (1 <<< idx))) →
              (b ∈ U.erase ((mk_search_ctx truck orders).order_by_value.getD idx 0) ∨
                b ∈ selection_of_mask (mk_search_ctx truck orders) (idx + 1)
                  (m ||| (1 <<< idx))) →
              a ≠ b → OrdersCompat orders a b := by
            intro a b ha hb hne
            apply hcompat a b _ _ hne
            · rcases ha with ha | ha
              · exact Or.inl (Finset.mem_of_mem_erase ha)
              · rw [hsel] at ha
                rcases List.mem_append.mp ha with ha2 | ha2
                · exact Or.inr ha2
                · rw [List.mem_singleton] at ha2
                  exact Or.inl (ha2 ▸ hmem)
            · rcases hb with hb | hb
              · exact Or.inl (Finset.mem_of_mem_erase hb)
              · rw [hsel] at hb
                rcases List.mem_append.mp hb with hb2 | hb2
                · exact Or.inr hb2
                · rw [List.mem_singleton] at hb2
                  exact Or.inl (hb2 ▸ hmem)
          have hinc := ih (idx + 1) (m ||| (1 <<< idx)) _ _ _ _
            (update_best (mk_search_ctx truck orders) idx m p best)
            (U.erase ((mk_search_ctx truck orders).order_by_value.getD idx 0))
            (by omega) hSinc hub.1 hU2 hcompat2 (by omega) (by omega)
          have hAinc := search_best_inv truck orders orders.length (idx + 1)
            (m ||| (1 <<< idx)) _ _ _ _ _ (by omega) hSinc hub.1
          have hSskip := state_inv_skip truck orders hS (by omega)
          have hAskip := search_best_inv truck orders orders.length (idx + 1)
            m p w v valid _ (by omega) hSskip hAinc.1
          omega
        · -- the candidate is not in the target set: follow the skip branch
          have hU2 : ∀ u ∈ U,
              u ∈ (mk_search_ctx truck orders).order_by_value.drop (idx + 1) := by
            intro u hu
            refine mem_drop_succ_of_ne truck orders (by omega) (hU u hu) ?_
            intro he
            exact hmem (he ▸ hu)
          have hSskip := state_inv_skip truck orders hS (by omega)
          have hselskip : selection_of_mask (mk_search_ctx truck orders) (idx + 1) m =
              selection_of_mask (mk_search_ctx truck orders) idx m :=
            selection_of_mask_succ_false _ _ _ (Nat.testBit_lt_two_pow hS.mask_lt)
          have hcompat2 : ∀ a b : Nat,
              (a ∈ U ∨ a ∈ selection_of_mask (mk_search_ctx truck orders) (idx + 1) m) →
              (b ∈ U ∨ b ∈ selection_of_mask (mk_search_ctx truck orders) (idx + 1) m) →
              a ≠ b → OrdersCompat orders a b := by
            intro a b ha hb hne
            rw [hselskip] at ha hb
            exact hcompat a b ha hb hne
          by_cases hbit : valid.testBit
              ((mk_search_ctx truck orders).order_by_value.getD idx 0) = true
          · by_cases hfits : w + (mk_search_ctx truck orders).weights.getD
                ((mk_search_ctx truck orders).order_by_value.getD idx 0) 0 ≤
                  (mk_search_ctx truck orders).max_weight ∧
                v + (mk_search_ctx truck orders).volumes.getD
                  ((mk_search_ctx truck orders).order_by_value.getD idx 0) 0 ≤
                  (mk_search_ctx truck orders).max_volume
            · rw [search_of_include _ _ _ _ _ _ _ _ (by rw [mk_n]; omega) hprune
                (by rw [and_shift_ne]; exact hbit) hfits]
              have hSinc := state_inv_include truck orders hS (by omega) hbit
                (by rw [← mk_max_weight truck orders]; exact hfits.1)
                (by rw [← mk_max_volume truck orders]; exact hfits.2)
              have hAinc := search_best_inv truck orders orders.length (idx + 1)
                (m ||| (1 <<< idx)) _ _ _ _ _ (by omega) hSinc hub.1
              exact ih (idx + 1) m p w v valid _ U (by omega) hSskip hAinc.1
                hU2 hcompat2 hwU hvU
            · rw [search_of_skip_only _ _ _ _ _ _ _ _ (by rw [mk_n]; omega) hprune
                (by intro hc; exact hfits hc.2)]
              exact ih (idx + 1) m p w v valid _ U (by omega) hSskip hub.1
                hU2 hcompat2 hwU hvU
          · rw [search_of_skip_only _ _ _ _ _ _ _ _ (by rw [mk_n]; omega) hprune
              (by intro hc; rw [and_shift_ne] at hc; exact hbit hc.1)]
            exact ih (idx + 1) m p w v valid _ U (by omega) hSskip hub.1
              hU2 hcompat2 hwU hvU

/-! No selection the search ever records contains a zero-payout order:
the incumbent only moves on a strict payout improvement, and the
descending-payout search order makes any extension after a zero-payout
inclusion worthless. -/

def ZeroFree (truck : Truck) (orders : List Order) (l : List Nat) : Prop :=
  ∀ i ∈ l, (mk_search_ctx truck orders).payouts.getD i 0 ≠ 0

theorem update_best_zero_free (truck : Truck) (orders : List Order) {idx m : Nat}
    {p : Int} {best : Int × List Nat}
    (hZsel : ZeroFree truck orders
        (selection_of_mask (mk_search_ctx truck orders) idx m) ∨ p ≤ best.1)
    (hZb : ZeroFree truck orders best.2) :
    ZeroFree truck orders (update_best (mk_search_ctx truck orders) idx m p best).2 := by
  unfold update_best
  by_cases h : best.1 < p
  · rw [if_pos h]
    rcases hZsel with hz | hle
    · exact hz
    · exact absurd hle (not_le.mpr h)
  · rw [if_neg h]
    exact hZb

theorem search_zero_free (truck : Truck) (orders : List Order)
    (hVI : ValidInput truck orders) :
    ∀ (fuel idx m : Nat) (p w v : Int) (valid : Nat) (best : Int × List Nat),
      orders.length - idx ≤ fuel →
      StateInv truck orders idx m p w v valid →
      BestInv truck orders best →
      (ZeroFree truck orders
        (selection_of_mask (mk_search_ctx truck orders) idx m) ∨ p ≤ best.1) →
      ZeroFree truck orders best.2 →
      ZeroFree truck orders
        (search (mk_search_ctx truck orders) idx m p w v valid best).2 := by
  intro fuel
  induction fuel with
  | zero =>
    intro idx m p w v valid best hfuel hS hB hZsel hZb
    rw [search_of_le _ _ _ _ _ _ _ _ (by rw [mk_n]; omega)]
    exact update_best_zero_free truck orders hZsel hZb
  | succ f ih =>
    intro idx m p w v valid best hfuel hS hB hZsel hZb
    by_cases hidx : orders.length ≤ idx
    · rw [search_of_le _ _ _ _ _ _ _ _ (by rw [mk_n]; omega)]
      exact update_best_zero_free truck orders hZsel hZb
    · have hub := update_best_inv truck orders hS hB
      have hZ1 := update_best_zero_free truck orders hZsel hZb
      by_cases hprune : p + (mk_search_ctx truck orders).suffix_payout.getD idx 0 ≤
          (update_best (mk_search_ctx truck orders) idx m p best).1
      · rw [search_of_prune _ _ _ _ _ _ _ _ (by rw [mk_n]; omega) hprune]
        exact hZ1
      · by_cases hbit : valid.testBit
            ((mk_search_ctx truck orders).order_by_value.getD idx 0) = true
        · by_cases hfits : w + (mk_search_ctx truck orders).weights.getD
              ((mk_search_ctx truck orders).order_by_value.getD idx 0) 0 ≤
                (mk_search_ctx truck orders).max_weight ∧
              v + (mk_search_ctx truck orders).volumes.getD
                ((mk_search_ctx truck orders).order_by_value.getD idx 0) 0 ≤
                (mk_search_ctx truck orders).max_volume
          · rw [search_of_include _ _ _ _ _ _ _ _ (by rw [mk_n]; omega) hprune
              (by rw [and_shift_ne]; exact hbit) hfits]
            have hSinc := state_inv_include truck orders hS (by omega) hbit
              (by rw [← mk_max_weight truck orders]; exact hfits.1)
              (by rw [← mk_max_volume truck orders]; exact hfits.2)
            have hsel := selection_include (mk_search_ctx truck orders) idx m
            have hZinc2 : ZeroFree truck orders
                (selection_of_mask (mk_search_ctx truck orders) (idx + 1)
                  (m ||| (1 <<< idx))) ∨
                p + (mk_search_ctx truck orders).payouts.getD
                  ((mk_search_ctx truck orders).order_by_value.getD idx 0) 0 ≤
                  (update_best (mk_search_ctx truck orders) idx m p best).1 := by
              by_cases hzoidx : (mk_search_ctx truck orders).payouts.getD
                  ((mk_search_ctx truck orders).order_by_value.getD idx 0) 0 = 0
              · right
                have := hub.2.2
                omega
              · left
                have hzsel : ZeroFree truck orders
                    (selection_of_mask (mk_search_ctx truck orders) idx m) := by
                  intro i hi hzi
                  rw [mem_selection_of_mask] at hi
                  obtain ⟨d, hd, _, hval⟩ := hi
                  have hdesc := obv_desc truck orders hd (by omega)
                  rw [hval, hzi] at hdesc
                  have hnn := payouts_getD_nonneg truck orders hVI.2.2.1
                    ((mk_search_ctx truck orders).order_by_value.getD idx 0)
                  exact hzoidx (le_antisymm hdesc hnn)
                rw [hsel]
                intro i hi
                rcases List.mem_append.mp hi with hi2 | hi2
                · exact hzsel i hi2
                · rw [List.mem_singleton] at hi2
                  subst hi2
                  exact hzoidx
            have hZbest2 := ih (idx + 1) (m ||| (1 <<< idx)) _ _ _ _ _ (by omega)
              hSinc hub.1 hZinc2 hZ1
            have hAinc := search_best_inv truck orders orders.length (idx + 1)
              (m ||| (1 <<< idx)) _ _ _ _ _ (by omega) hSinc hub.1
            have hSskip := state_inv_skip truck orders hS (by omega)
            refine ih (idx + 1) m p w v valid _ (by omega) hSskip hAinc.1
              (Or.inr ?_) hZbest2
            have h1 := hub.2.2
            have h2 := hAinc.2
            omega
          · rw [search_of_skip_only _ _ _ _ _ _ _ _ (by rw [mk_n]; omega) hprune
              (by intro hc; exact hfits hc.2)]
            have hSskip := state_inv_skip truck orders hS (by omega)
            exact ih (idx + 1) m p w v valid _ (by omega) hSskip hub.1
              (Or.inr hub.2.2) hZ1
        · rw [search_of_skip_only _ _ _ _ _ _ _ _ (by rw [mk_n]; omega) hprune
            (by intro hc; rw [and_shift_ne] at hc; exact hbit hc.1)]
          have hSskip := state_inv_skip truck orders hS (by omega)
          exact ih (idx + 1) m p w v valid _ (by omega) hSskip hub.1
            (Or.inr hub.2.2) hZ1

/-! The invariants hold at the root call. -/

theorem root_state_inv (truck : Truck) (orders : List Order)
    (hVI : ValidInput truck orders) :
    StateInv truck orders 0 0 0 0 0 ((1 <<< orders.length) - 1) := by
  refine ⟨Nat.zero_le _, by norm_num, rfl, rfl, rfl, le_of_lt hVI.1,
    le_of_lt hVI.2.1, ?_, ?_⟩
  · intro i hi
    rw [selection_of_mask_zero] at hi
    exact absurd hi (List.not_mem_nil i)
  · intro j
    rw [one_shiftLeft, Nat.testBit_two_pow_sub_one, selection_of_mask_zero]
    simp

theorem root_best_inv (truck : Truck) (orders : List Order)
    (hVI : ValidInput truck orders) :
    BestInv truck orders (0, []) := by
  refine ⟨List.nodup_nil, ?_, ?_, rfl, le_of_lt hVI.1, le_of_lt hVI.2.1⟩
  · intro i hi
    exact absurd hi (List.not_mem_nil i)
  · intro i hi
    exact absurd hi (List.not_mem_nil i)

/-! Consequences for the root call and for `optimize`. -/

theorem run_search_best_inv (truck : Truck) (orders : List Order)
    (hVI : ValidInput truck orders) :
    BestInv truck orders (run_search truck orders) := by
  unfold run_search
  exact (search_best_inv truck orders orders.length 0 0 0 0 0 _ (0, []) (by omega)
    (root_state_inv truck orders hVI) (root_best_inv truck orders hVI)).1

theorem run_search_zero_free (truck : Truck) (orders : List Order)
    (hVI : ValidInput truck orders) :
    ZeroFree truck orders (run_search truck orders).2 := by
  unfold run_search
  exact search_zero_free truck orders hVI orders.length 0 0 0 0 0 _ (0, []) (by omega)
    (root_state_inv truck orders hVI) (root_best_inv truck orders hVI)
    (Or.inr (le_refl 0)) (fun i hi => absurd hi (List.not_mem_nil i))

theorem sum_payout_eq (truck : Truck) (orders : List Order) (S : Finset Nat)
    (hS : ∀ i ∈ S, i < orders.length) :
    S.sum (fun u => (mk_search_ctx truck orders).payouts.getD u 0) =
      payout_sum orders S :=
  Finset.sum_congr rfl (fun i hi => payouts_getD truck orders (hS i hi))

theorem sum_weight_eq (truck : Truck) (orders : List Order) (S : Finset Nat)
    (hS : ∀ i ∈ S, i < orders.length) :
    S.sum (fun u => (mk_search_ctx truck orders).weights.getD u 0) =
      weight_sum orders S :=
  Finset.sum_congr rfl (fun i hi => weights_getD truck orders (hS i hi))

theorem sum_volume_eq (truck : Truck) (orders : List Order) (S : Finset Nat)
    (hS : ∀ i ∈ S, i < orders.length) :
    S.sum (fun u => (mk_search_ctx truck orders).volumes.getD u 0) =
      volume_sum orders S :=
  Finset.sum_congr rfl (fun i hi => volumes_getD truck orders (hS i hi))

theorem run_search_ge (truck : Truck) (orders : List Order)
    (hVI : ValidInput truck orders) (S : Finset Nat)
    (hfeas : FeasibleCompatible truck orders S) :
    payout_sum orders S ≤ (run_search truck orders).1 := by
  obtain ⟨hmem, hcomp, hwle, hvle⟩ := hfeas
  have hU : ∀ u ∈ S, u ∈ (mk_search_ctx truck orders).order_by_value.drop 0 := by
    intro u hu
    rw [List.drop_zero, obv_mem_iff]
    exact hmem u hu
  have hcompat : ∀ a b : Nat,
      (a ∈ S ∨ a ∈ selection_of_mask (mk_search_ctx truck orders) 0 0) →
      (b ∈ S ∨ b ∈ selection_of_mask (mk_search_ctx truck orders) 0 0) →
      a ≠ b → OrdersCompat orders a b := by
    intro a b ha hb hne
    rw [selection_of_mask_zero] at ha hb
    rcases ha with ha | ha
    · rcases hb with hb | hb
      · exact hcomp a ha b hb hne
      · exact absurd hb (List.not_mem_nil b)
    · exact absurd ha (List.not_mem_nil a)
  have h := search_reaches truck orders hVI orders.length 0 0 0 0 0 _ (0, []) S
    (by omega) (root_state_inv truck orders hVI) (root_best_inv truck orders hVI)
    hU hcompat
    (by rw [sum_weight_eq truck orders S hmem]; omega)
    (by rw [sum_volume_eq truck orders S hmem]; omega)
  rw [sum_payout_eq truck orders S hmem] at h
  unfold run_search
  omega

theorem optimize_of_ne (truck : Truck) (orders : List Order)
    (h : orders.length ≠ 0) :
    optimize truck orders =
      ((run_search truck orders).2.map (fun i => (orders.getD i default).id),
        (run_search truck orders).1,
        ((run_search truck orders).2.map
          (fun i => (mk_search_ctx truck orders).weights.getD i 0)).sum,
        ((run_search truck orders).2.map
          (fun i => (mk_search_ctx truck orders).volumes.getD i 0)).sum) := by
  unfold optimize
  rw [if_neg h]

theorem optimize_of_eq (truck : Truck) (orders : List Order)
    (h : orders.length = 0) :
    optimize truck orders = ([], 0, 0, 0) := by
  unfold optimize
  rw [if_pos h]

/-- Master soundness result: the tuple returned by `optimize` is generated
by a nodup, in-range, pairwise-compatible, zero-payout-free index selection
whose mapped ids and summed payout, weight and volume are exactly the
returned components, and whose totals respect both capacities. -/
theorem optimize_spec (truck : Truck) (orders : List Order)
    (hVI : ValidInput truck orders) :
    ∃ sel : List Nat, sel.Nodup ∧ (∀ i ∈ sel, i < orders.length) ∧
      PairwiseCompat orders sel ∧
      (∀ i ∈ sel, (orders.getD i default).payout_cents ≠ 0) ∧
      (optimize truck orders).1 = sel.map (fun i => (orders.getD i default).id) ∧
      (optimize truck orders).2.1 =
        (sel.map (fun i => (orders.getD i default).payout_cents)).sum ∧
      (optimize truck orders).2.2.1 =
        (sel.map (fun i => (orders.getD i default).weight_lbs)).sum ∧
      (optimize truck orders).2.2.2 =
        (sel.map (fun i => (orders.getD i default).volume_cuft)).sum ∧
      (optimize truck orders).2.2.1 ≤ truck.max_weight_lbs ∧
      (optimize truck orders).2.2.2 ≤ truck.max_volume_cuft := by
  by_cases h : orders.length = 0
  · refine ⟨[], List.nodup_nil, fun i hi => absurd hi (List.not_mem_nil i),
      fun i hi => absurd hi (List.not_mem_nil i),
      fun i hi => absurd hi (List.not_mem_nil i), ?_, ?_, ?_, ?_, ?_, ?_⟩ <;>
      rw [optimize_of_eq truck orders h] <;> simp
    · exact le_of_lt hVI.1
    · exact le_of_lt hVI.2.1
  · have hB := run_search_best_inv truck orders hVI
    have hZ := run_search_zero_free truck orders hVI
    refine ⟨(run_search truck orders).2, hB.nodup, hB.mem_lt, hB.compat, ?_,
      ?_, ?_, ?_, ?_, ?_, ?_⟩
    · intro i hi
      have hz := hZ i hi
      rw [payouts_getD truck orders (hB.mem_lt i hi)] at hz
      exact hz
    · rw [optimize_of_ne truck orders h]
    · rw [optimize_of_ne truck orders h]
      have hp := hB.p_eq
      unfold psum at hp
      rw [hp]
      exact congrArg List.sum
        (List.map_congr_left (fun i hi => payouts_getD truck orders (hB.mem_lt i hi)))
    · rw [optimize_of_ne truck orders h]
      exact congrArg List.sum
        (List.map_congr_left (fun i hi => weights_getD truck orders (hB.mem_lt i hi)))
    · rw [optimize_of_ne truck orders h]
      exact congrArg List.sum
        (List.map_congr_left (fun i hi => volumes_getD truck orders (hB.mem_lt i hi)))
    · rw [optimize_of_ne truck orders h]
      exact hB.w_le
    · rw [optimize_of_ne truck orders h]
      exact hB.v_le

/-- Master optimality result: no feasible, pairwise-compatible subset beats
the payout returned by `optimize`. -/
theorem optimize_ge (truck : Truck) (orders : List Order)
    (hVI : ValidInput truck orders) (S : Finset Nat)
    (hfeas : FeasibleCompatible truck orders S) :
    payout_sum orders S ≤ (optimize truck orders).2.1 := by
  by_cases h : orders.length = 0
  · have hSe : S = ∅ := by
      apply Finset.eq_empty_iff_forall_not_mem.mpr
      intro u hu
      have := hfeas.1 u hu
      omega
    subst hSe
    rw [optimize_of_eq truck orders h]
    unfold payout_sum
    simp
  · rw [optimize_of_ne truck orders h]
    exact run_search_ge truck orders hVI S hfeas

/-- Master achievability result: the payout returned by `optimize` is the
payout of some feasible, pairwise-compatible subset. -/
theorem optimize_achieves (truck : Truck) (orders : List Order)
    (hVI : ValidInput truck orders) :
    ∃ S : Finset Nat, FeasibleCompatible truck orders S ∧
      (optimize truck orders).2.1 = payout_sum orders S := by
  obtain ⟨sel, hnd, hlt, hcomp, _hz, _hids, hp, hw, hv, hwle, hvle⟩ :=
    optimize_spec truck orders hVI
  refine ⟨sel.toFinset, ⟨?_, ?_, ?_, ?_⟩, ?_⟩
  · intro i hi
    exact hlt i (List.mem_toFinset.mp hi)
  · intro i hi j hj hne
    exact hcomp i (List.mem_toFinset.mp hi) j (List.mem_toFinset.mp hj) hne
  · unfold weight_sum
    rw [List.sum_toFinset _ hnd, ← hw]
    exact hwle
  · unfold volume_sum
    rw [List.sum_toFinset _ hnd, ← hv]
    exact hvle
  · unfold payout_sum
    rw [List.sum_toFinset _ hnd, ← hp]

/-! Concrete inputs used by the witnesses: the sample request from the
repository's test suite, a zero-payout order, a dominated order, and a
truck with non-positive capacities. -/

def truck0 : Truck := ⟨"truck-123", 44000, 3000⟩

def order1 : Order :=
  ⟨"ord-001", 250000, 18000, 1200, "Los Angeles, CA", "Dallas, TX", 5, 9, false⟩

def order2 : Order :=
  ⟨"ord-002", 180000, 12000, 900, "Los Angeles, CA", "Dallas, TX", 4, 10, false⟩

def order3 : Order :=
  ⟨"ord-003", 320000, 30000, 1800, "Los Angeles, CA", "Dallas, TX", 6, 8, true⟩

def orders0 : List Order := [order1, order2, order3]

def orderZ : Order :=
  ⟨"ord-zero", 0, 1000, 100, "Los Angeles, CA", "Dallas, TX", 5, 9, false⟩

def ordersZ : List Order := [order1, orderZ]

def orderD : Order :=
  ⟨"ord-dom", 200000, 18000, 1200, "Los Angeles, CA", "Dallas, TX", 5, 9, false⟩

def truckZ : Truck := ⟨"truck-z", 0, -3⟩

theorem py_round_2_zero : py_round_2 0 = 0 := by
  unfold py_round_2 round_half_even
  norm_num

/-- Claim C1: under the input preconditions, the total payout returned by
`optimize` equals the maximum summed payout over all subsets of the orders
that fit both capacities and are pairwise compatible: it is achieved by such
a subset, and no such subset pays strictly more. -/
theorem optimize_payout_is_maximum (truck : Truck) (orders : List Order)
    (hVI : ValidInput truck orders) :
    (∃ S : Finset Nat, FeasibleCompatible truck orders S ∧
      (optimize truck orders).2.1 = payout_sum orders S) ∧
    ∀ S : Finset Nat, FeasibleCompatible truck orders S →
      payout_sum orders S ≤ (optimize truck orders).2.1 :=
  ⟨optimize_achieves truck orders hVI,
    fun S hS => optimize_ge truck orders hVI S hS⟩

theorem optimize_payout_is_maximum_witness :
    ValidInput truck0 orders0 ∧
      ((∃ S : Finset Nat, FeasibleCompatible truck0 orders0 S ∧
        (optimize truck0 orders0).2.1 = payout_sum orders0 S) ∧
      ∀ S : Finset Nat, FeasibleCompatible truck0 orders0 S →
        payout_sum orders0 S ≤ (optimize truck0 orders0).2.1) := by
  have hVI : ValidInput truck0 orders0 :=
    ⟨by decide, by decide, by decide, by decide, by decide⟩
  exact ⟨hVI, optimize_payout_is_maximum truck0 orders0 hVI⟩

/-- Claim C2: under the input preconditions, the returned total weight is
at most the truck's maximum weight and the returned total volume is at most
the truck's maximum volume. -/
theorem optimize_totals_within_capacity (truck : Truck) (orders : List Order)
    (hVI : ValidInput truck orders) :
    (optimize truck orders).2.2.1 ≤ truck.max_weight_lbs ∧
      (optimize truck orders).2.2.2 ≤ truck.max_volume_cuft := by
  obtain ⟨sel, _, _, _, _, _, _, _, _, hw, hv⟩ := optimize_spec truck orders hVI
  exact ⟨hw, hv⟩

theorem optimize_totals_within_capacity_witness :
    ValidInput truck0 orders0 ∧
      (optimize truck0 orders0).2.2.1 ≤ truck0.max_weight_lbs ∧
      (optimize truck0 orders0).2.2.2 ≤ truck0.max_volume_cuft := by
  have hVI : ValidInput truck0 orders0 :=
    ⟨by decide, by decide, by decide, by decide, by decide⟩
  exact ⟨hVI, optimize_totals_within_capacity truck0 orders0 hVI⟩

/-- Claim C3: under the input preconditions, the returned ids come from an
index selection in which every pair of distinct orders passes all three
compatibility checks (route, time windows, hazmat), even though the search
enforces this only through the eligible-set bitmask. -/
theorem optimize_selection_pairwise_compatible (truck : Truck)
    (orders : List Order) (hVI : ValidInput truck orders) :
    ∃ sel : List Nat,
      (optimize truck orders).1 = sel.map (fun i => (orders.getD i default).id) ∧
      (∀ i ∈ sel, i < orders.length) ∧
      ∀ i ∈ sel, ∀ j ∈ sel, i ≠ j →
        check_same_route (orders.getD i default) (orders.getD j default) = true ∧
        check_time_windows (orders.getD i default) (orders.getD j default) = true ∧
        check_hazmat_ok (orders.getD i default) (orders.getD j default) = true := by
  obtain ⟨sel, _, hlt, hcomp, _, hids, _, _, _, _, _⟩ :=
    optimize_spec truck orders hVI
  refine ⟨sel, hids, hlt, fun i hi j hj hne => ?_⟩
  have hc := hcomp i hi j hj hne
  unfold OrdersCompat can_combine at hc
  simp only [Bool.and_eq_true] at hc
  exact ⟨hc.1.1, hc.1.2, hc.2⟩

theorem optimize_selection_pairwise_compatible_witness :
    ValidInput truck0 orders0 ∧
      ∃ sel : List Nat,
        (optimize truck0 orders0).1 =
          sel.map (fun i => (orders0.getD i default).id) ∧
        (∀ i ∈ sel, i < orders0.length) ∧
        ∀ i ∈ sel, ∀ j ∈ sel, i ≠ j →
          check_same_route (orders0.getD i default) (orders0.getD j default) = true ∧
          check_time_windows (orders0.getD i default) (orders0.getD j default) = true ∧
          check_hazmat_ok (orders0.getD i default) (orders0.getD j default) = true := by
  have hVI : ValidInput truck0 orders0 :=
    ⟨by decide, by decide, by decide, by decide, by decide⟩
  exact ⟨hVI, optimize_selection_pairwise_compatible truck0 orders0 hVI⟩

/-- Claim C4: the compatibility evaluator accepts two orders exactly when
their origins and destinations agree after trimming surrounding whitespace
and lowercasing, the later pickup is no later than the earlier delivery
(closed intervals, so touching endpoints overlap), and the hazmat flags are
equal. -/
theorem can_combine_spec (order1 order2 : Order) :
    can_combine order1 order2 = true ↔
      (order1.origin.trim.toLower = order2.origin.trim.toLower ∧
        order1.destination.trim.toLower = order2.destination.trim.toLower ∧
        max order1.pickup_date order2.pickup_date ≤
          min order1.delivery_date order2.delivery_date ∧
        order1.is_hazmat = order2.is_hazmat) :=
  can_combine_iff order1 order2

/-- Claim C5: under the input preconditions, the result is internally
consistent: one index selection (nodup, in range) generates the returned
ids by mapping, and the returned payout, weight and volume are exactly the
sums of the corresponding fields over that selection.  The order of the
ids is the deterministic order of that selection list (the result of the
pure function `optimize`). -/
theorem optimize_result_internally_consistent (truck : Truck)
    (orders : List Order) (hVI : ValidInput truck orders) :
    ∃ sel : List Nat, sel.Nodup ∧ (∀ i ∈ sel, i < orders.length) ∧
      (optimize truck orders).1 = sel.map (fun i => (orders.getD i default).id) ∧
      (optimize truck orders).2.1 =
        (sel.map (fun i => (orders.getD i default).payout_cents)).sum ∧
      (optimize truck orders).2.2.1 =
        (sel.map (fun i => (orders.getD i default).weight_lbs)).sum ∧
      (optimize truck orders).2.2.2 =
        (sel.map (fun i => (orders.getD i default).volume_cuft)).sum := by
  obtain ⟨sel, hnd, hlt, _, _, hids, hp, hw, hv, _, _⟩ :=
    optimize_spec truck orders hVI
  exact ⟨sel, hnd, hlt, hids, hp, hw, hv⟩

theorem optimize_result_internally_consistent_witness :
    ValidInput truck0 orders0 ∧
      ∃ sel : List Nat, sel.Nodup ∧ (∀ i ∈ sel, i < orders0.length) ∧
        (optimize truck0 orders0).1 =
          sel.map (fun i => (orders0.getD i default).id) ∧
        (optimize truck0 orders0).2.1 =
          (sel.map (fun i => (orders0.getD i default).payout_cents)).sum ∧
        (optimize truck0 orders0).2.2.1 =
          (sel.map (fun i => (orders0.getD i default).weight_lbs)).sum ∧
        (optimize truck0 orders0).2.2.2 =
          (sel.map (fun i => (orders0.getD i default).volume_cuft)).sum := by
  have hVI : ValidInput truck0 orders0 :=
    ⟨by decide, by decide, by decide, by decide, by decide⟩
  exact ⟨hVI, optimize_result_internally_consistent truck0 orders0 hVI⟩

/-- Claim C6: `order_by_value` is a permutation of the order indices sorted
by strictly descending payout with ties broken by ascending original
position (Python's stable descending sort), and `suffix_payout` has length
N + 1, ends in 0, satisfies the backward recurrence, and bounds from above
the payout of any subset of the candidates at positions at or after `i`. -/
theorem order_by_value_sorted_and_suffix_table (truck : Truck)
    (orders : List Order) (hp : ∀ o ∈ orders, 0 ≤ o.payout_cents) :
    (mk_search_ctx truck orders).order_by_value.Perm (List.range orders.length) ∧
    (∀ d e : Nat, d < e → e < orders.length →
      ((orders.getD ((mk_search_ctx truck orders).order_by_value.getD e 0)
          default).payout_cents <
        (orders.getD ((mk_search_ctx truck orders).order_by_value.getD d 0)
          default).payout_cents ∨
        ((orders.getD ((mk_search_ctx truck orders).order_by_value.getD d 0)
            default).payout_cents =
          (orders.getD ((mk_search_ctx truck orders).order_by_value.getD e 0)
            default).payout_cents ∧
          (mk_search_ctx truck orders).order_by_value.getD d 0 <
            (mk_search_ctx truck orders).order_by_value.getD e 0))) ∧
    (mk_search_ctx truck orders).suffix_payout.length = orders.length + 1 ∧
    (mk_search_ctx truck orders).suffix_payout.getD orders.length 0 = 0 ∧
    (∀ i, i < orders.length →
      (mk_search_ctx truck orders).suffix_payout.getD i 0 =
        (mk_search_ctx truck orders).suffix_payout.getD (i + 1) 0 +
          (orders.getD ((mk_search_ctx truck orders).order_by_value.getD i 0)
            default).payout_cents) ∧
    (∀ i : Nat, ∀ U : Finset Nat,
      (∀ u ∈ U, u ∈ (mk_search_ctx truck orders).order_by_value.drop i) →
      payout_sum orders U ≤ (mk_search_ctx truck orders).suffix_payout.getD i 0) := by
  refine ⟨obv_perm truck orders, ?_, ?_, ?_, ?_, ?_⟩
  · intro d e hde he
    have hp2 := obv_sorted truck orders
    rw [List.pairwise_iff_getElem] at hp2
    have hd2 : d < (mk_search_ctx truck orders).order_by_value.length := by
      rw [obv_length]; omega
    have he2 : e < (mk_search_ctx truck orders).order_by_value.length := by
      rw [obv_length]; exact he
    have hkey := hp2 d e hd2 he2 hde
    have hdn : (mk_search_ctx truck orders).order_by_value.getD d 0 < orders.length :=
      obv_getD_lt truck orders (by omega)
    have hen : (mk_search_ctx truck orders).order_by_value.getD e 0 < orders.length :=
      obv_getD_lt truck orders he
    have hne : (mk_search_ctx truck orders).order_by_value.getD d 0 ≠
        (mk_search_ctx truck orders).order_by_value.getD e 0 := by
      intro hcon
      have := obv_getD_inj truck orders (by omega) he hcon
      omega
    rw [← List.getD_eq_getElem (mk_search_ctx truck orders).order_by_value 0 hd2,
      ← List.getD_eq_getElem (mk_search_ctx truck orders).order_by_value 0 he2] at hkey
    simp only [sort_key, decide_eq_true_eq] at hkey
    rw [← mk_payouts truck orders, payouts_getD truck orders hdn,
      payouts_getD truck orders hen] at hkey
    rcases hkey with hlt | ⟨heq, hle⟩
    · exact Or.inl hlt
    · exact Or.inr ⟨heq, lt_of_le_of_ne hle hne⟩
  · rw [mk_suffix_payout, suffix_sums_length, List.length_map, obv_length]
  · rw [suffix_payout_getD]
    have hd : (mk_search_ctx truck orders).order_by_value.drop orders.length = [] :=
      List.drop_eq_nil_of_le (by rw [obv_length])
    rw [hd]
    rfl
  · intro i hi
    rw [suffix_payout_getD, suffix_payout_getD]
    have hlen : i < (mk_search_ctx truck orders).order_by_value.length := by
      rw [obv_length]; exact hi
    rw [List.drop_eq_getElem_cons hlen]
    simp only [List.map_cons, List.sum_cons]
    rw [← List.getD_eq_getElem _ _ hlen,
      payouts_getD truck orders (obv_getD_lt truck orders hi)]
    omega
  · intro i U hU
    have hmemn : ∀ u ∈ U, u < orders.length := by
      intro u hu
      have h2 := List.mem_of_mem_drop (hU u hu)
      rw [obv_mem_iff] at h2
      exact h2
    have hb := finset_payout_le_suffix truck orders hp i U hU
    rw [sum_payout_eq truck orders U hmemn] at hb
    exact hb

theorem order_by_value_sorted_and_suffix_table_witness :
    (∀ o ∈ orders0, 0 ≤ o.payout_cents) ∧
      ((mk_search_ctx truck0 orders0).order_by_value.Perm
        (List.range orders0.length) ∧
      (∀ d e : Nat, d < e → e < orders0.length →
        ((orders0.getD ((mk_search_ctx truck0 orders0).order_by_value.getD e 0)
            default).payout_cents <
          (orders0.getD ((mk_search_ctx truck0 orders0).order_by_value.getD d 0)
            default).payout_cents ∨
          ((orders0.getD ((mk_search_ctx truck0 orders0).order_by_value.getD d 0)
              default).payout_cents =
            (orders0.getD ((mk_search_ctx truck0 orders0).order_by_value.getD e 0)
              default).payout_cents ∧
            (mk_search_ctx truck0 orders0).order_by_value.getD d 0 <
              (mk_search_ctx truck0 orders0).order_by_value.getD e 0))) ∧
      (mk_search_ctx truck0 orders0).suffix_payout.length = orders0.length + 1 ∧
      (mk_search_ctx truck0 orders0).suffix_payout.getD orders0.length 0 = 0 ∧
      (∀ i, i < orders0.length →
        (mk_search_ctx truck0 orders0).suffix_payout.getD i 0 =
          (mk_search_ctx truck0 orders0).suffix_payout.getD (i + 1) 0 +
            (orders0.getD ((mk_search_ctx truck0 orders0).order_by_value.getD i 0)
              default).payout_cents) ∧
      (∀ i : Nat, ∀ U : Finset Nat,
        (∀ u ∈ U, u ∈ (mk_search_ctx truck0 orders0).order_by_value.drop i) →
        payout_sum orders0 U ≤
          (mk_search_ctx truck0 orders0).suffix_payout.getD i 0)) := by
  have hp : ∀ o ∈ orders0, 0 ≤ o.payout_cents := by decide
  exact ⟨hp, order_by_value_sorted_and_suffix_table truck0 orders0 hp⟩

/-- Claim C7: for a truck with positive capacities, optimizing an empty
order list yields the zero result: empty id list, zero payout, weight and
volume, and both utilization percentages equal to 0. -/
theorem optimize_load_empty_orders (truck : Truck)
    (hW : 0 < truck.max_weight_lbs) (hV : 0 < truck.max_volume_cuft) :
    optimize_load truck [] = ⟨truck.id, [], 0, 0, 0, 0, 0⟩ := by
  unfold optimize_load
  rw [optimize_of_eq truck [] rfl]
  dsimp only
  rw [if_pos hW, if_pos hV]
  norm_num [py_round_2, round_half_even]

theorem optimize_load_empty_orders_witness :
    0 < truck0.max_weight_lbs ∧ 0 < truck0.max_volume_cuft ∧
      optimize_load truck0 [] = ⟨truck0.id, [], 0, 0, 0, 0, 0⟩ :=
  ⟨by decide, by decide, optimize_load_empty_orders truck0 (by decide) (by decide)⟩

/-- Claim C8: for every input, including ones violating the positive
capacity precondition, the assembler never divides by a non-positive
capacity: a non-positive capacity yields a 0 percent utilization, and a
positive one yields the rounded value of total over capacity times 100. -/
theorem optimize_load_utilization_guard (truck : Truck) (orders : List Order) :
    (truck.max_weight_lbs ≤ 0 →
      (optimize_load truck orders).utilization_weight_percent = 0) ∧
    (0 < truck.max_weight_lbs →
      (optimize_load truck orders).utilization_weight_percent =
        py_round_2 ((((optimize_load truck orders).total_weight_lbs : ℚ) /
          (truck.max_weight_lbs : ℚ)) * 100)) ∧
    (truck.max_volume_cuft ≤ 0 →
      (optimize_load truck orders).utilization_volume_percent = 0) ∧
    (0 < truck.max_volume_cuft →
      (optimize_load truck orders).utilization_volume_percent =
        py_round_2 ((((optimize_load truck orders).total_volume_cuft : ℚ) /
          (truck.max_volume_cuft : ℚ)) * 100)) := by
  refine ⟨fun h => ?_, fun h => ?_, fun h => ?_, fun h => ?_⟩ <;>
    unfold optimize_load <;> dsimp only
  · rw [if_neg (by omega)]
    exact py_round_2_zero
  · rw [if_pos h]
  · rw [if_neg (by omega)]
    exact py_round_2_zero
  · rw [if_pos h]

theorem optimize_load_utilization_guard_witness :
    truckZ.max_weight_lbs ≤ 0 ∧ truckZ.max_volume_cuft ≤ 0 ∧
      (optimize_load truckZ orders0).utilization_weight_percent = 0 ∧
      (optimize_load truckZ orders0).utilization_volume_percent = 0 :=
  ⟨by decide, by decide,
    (optimize_load_utilization_guard truckZ orders0).1 (by decide),
    (optimize_load_utilization_guard truckZ orders0).2.2.1 (by decide)⟩

theorem valid_input_append (truck : Truck) (orders : List Order) (o : Order)
    (hVI : ValidInput truck orders) (hp : 0 ≤ o.payout_cents)
    (hw : 0 < o.weight_lbs) (hv : 0 < o.volume_cuft) :
    ValidInput truck (orders ++ [o]) := by
  refine ⟨hVI.1, hVI.2.1, ?_, ?_, ?_⟩ <;> intro x hx <;>
    rcases List.mem_append.mp hx with h | h
  · exact hVI.2.2.1 x h
  · rw [List.mem_singleton] at h; subst h; exact hp
  · exact hVI.2.2.2.1 x h
  · rw [List.mem_singleton] at h; subst h; exact hw
  · exact hVI.2.2.2.2 x h
  · rw [List.mem_singleton] at h; subst h; exact hv

theorem feasible_append (truck : Truck) (orders : List Order) (o : Order)
    (S : Finset Nat) (hfeas : FeasibleCompatible truck orders S) :
    FeasibleCompatible truck (orders ++ [o]) S ∧
      payout_sum (orders ++ [o]) S = payout_sum orders S := by
  obtain ⟨hmem, hcomp, hwle, hvle⟩ := hfeas
  have hget : ∀ i ∈ S, (orders ++ [o]).getD i default = orders.getD i default := by
    intro i hi
    exact List.getD_append orders [o] default i (hmem i hi)
  constructor
  · refine ⟨?_, ?_, ?_, ?_⟩
    · intro i hi
      rw [List.length_append]
      have := hmem i hi
      omega
    · intro i hi j hj hne
      rw [hget i hi, hget j hj]
      exact hcomp i hi j hj hne
    · unfold weight_sum at hwle ⊢
      rw [Finset.sum_congr rfl (fun i hi => by rw [hget i hi])]
      exact hwle
    · unfold volume_sum at hvle ⊢
      rw [Finset.sum_congr rfl (fun i hi => by rw [hget i hi])]
      exact hvle
  · unfold payout_sum
    exact Finset.sum_congr rfl (fun i hi => by rw [hget i hi])

/-- Claim C9: under the input preconditions, appending an order that is
dominated by some existing order (no higher payout, no lower weight or
volume, compatible with nothing the dominating order is not compatible
with) never decreases the optimal payout returned by `optimize`. -/
theorem optimize_monotone_add_dominated (truck : Truck) (orders : List Order)
    (o : Order) (hVI : ValidInput truck orders)
    (hop : 0 ≤ o.payout_cents) (how : 0 < o.weight_lbs) (hov : 0 < o.volume_cuft)
    (hdom : ∃ d, d < orders.length ∧
      o.payout_cents ≤ (orders.getD d default).payout_cents ∧
      (orders.getD d default).weight_lbs ≤ o.weight_lbs ∧
      (orders.getD d default).volume_cuft ≤ o.volume_cuft ∧
      ∀ j, j < orders.length →
        can_combine o (orders.getD j default) = true →
        can_combine (orders.getD d default) (orders.getD j default) = true) :
    (optimize truck orders).2.1 ≤ (optimize truck (orders ++ [o])).2.1 := by
  obtain ⟨S, hfeas, hpay⟩ := optimize_achieves truck orders hVI
  obtain ⟨hfeas2, hsum⟩ := feasible_append truck orders o S hfeas
  have hge := optimize_ge truck (orders ++ [o])
    (valid_input_append truck orders o hVI hop how hov) S hfeas2
  rw [hsum] at hge
  omega

theorem optimize_monotone_add_dominated_witness :
    ValidInput truck0 [order1] ∧ 0 ≤ orderD.payout_cents ∧
      0 < orderD.weight_lbs ∧ 0 < orderD.volume_cuft ∧
      (∃ d, d < [order1].length ∧
        orderD.payout_cents ≤ ([order1].getD d default).payout_cents ∧
        ([order1].getD d default).weight_lbs ≤ orderD.weight_lbs ∧
        ([order1].getD d default).volume_cuft ≤ orderD.volume_cuft ∧
        ∀ j, j < [order1].length →
          can_combine orderD ([order1].getD j default) = true →
          can_combine ([order1].getD d default) ([order1].getD j default) = true) ∧
      (optimize truck0 [order1]).2.1 ≤ (optimize truck0 ([order1] ++ [orderD])).2.1 := by
  have hVI : ValidInput truck0 [order1] :=
    ⟨by decide, by decide, by decide, by decide, by decide⟩
  have hdom : ∃ d, d < [order1].length ∧
      orderD.payout_cents ≤ ([order1].getD d default).payout_cents ∧
      ([order1].getD d default).weight_lbs ≤ orderD.weight_lbs ∧
      ([order1].getD d default).volume_cuft ≤ orderD.volume_cuft ∧
      ∀ j, j < [order1].length →
        can_combine orderD ([order1].getD j default) = true →
        can_combine ([order1].getD d default) ([order1].getD j default) = true := by
    refine ⟨0, by decide, by decide, by decide, by decide, ?_⟩
    intro j hj _
    have hj0 : j = 0 := by
      simp only [List.length_singleton] at hj
      omega
    subst hj0
    exact (can_combine_iff _ _).mpr ⟨rfl, rfl, by decide, rfl⟩
  exact ⟨hVI, by decide, by decide, by decide, hdom,
    optimize_monotone_add_dominated truck0 [order1] orderD hVI
      (by decide) (by decide) (by decide) hdom⟩

/-- Claim C10: under the input preconditions and with pairwise distinct
order ids, the id of an order with zero payout never appears in the
returned id list: the incumbent starts at payout 0 and is replaced only on
a strict improvement. -/
theorem zero_payout_never_selected (truck : Truck) (orders : List Order)
    (hVI : ValidInput truck orders)
    (hids : (orders.map (fun o => o.id)).Nodup) :
    ∀ k, k < orders.length → (orders.getD k default).payout_cents = 0 →
      (orders.getD k default).id ∉ (optimize truck orders).1 := by
  intro k hk hzero hmem
  obtain ⟨sel, _hnd, hlt, _hcomp, hz, hids_eq, _, _, _, _, _⟩ :=
    optimize_spec truck orders hVI
  rw [hids_eq, List.mem_map] at hmem
  obtain ⟨i, hi, hid⟩ := hmem
  have hin := hlt i hi
  have hlen_i : i < (orders.map (fun o => o.id)).length := by simpa using hin
  have hlen_k : k < (orders.map (fun o => o.id)).length := by simpa using hk
  have h1 : (orders.map (fun o => o.id))[i] = (orders.map (fun o => o.id))[k] := by
    rw [List.getElem_map, List.getElem_map,
      ← List.getD_eq_getElem orders default hin,
      ← List.getD_eq_getElem orders default hk]
    exact hid
  have hik : i = k := hids.getElem_inj_iff.mp h1
  subst hik
  exact hz i hi hzero

theorem zero_payout_never_selected_witness :
    ValidInput truck0 ordersZ ∧ (ordersZ.map (fun o => o.id)).Nodup ∧
      1 < ordersZ.length ∧ (ordersZ.getD 1 default).payout_cents = 0 ∧
      (ordersZ.getD 1 default).id ∉ (optimize truck0 ordersZ).1 := by
  have hVI : ValidInput truck0 ordersZ :=
    ⟨by decide, by decide, by decide, by decide, by decide⟩
  exact ⟨hVI, by decide, by decide, by decide,
    zero_payout_never_selected truck0 ordersZ hVI (by decide) 1 (by decide)
      (by decide)⟩
